import Mathlib

/-!
# Linear-time selection by median of medians (`src/a/select.c`)

A shallow embedding of the selection routines of `select.c` and proofs of
their properties.

## Model

* An `int arr[]` is a `List Int`; an index is an `Int`, as in the C source.
  Elements are only compared and moved, never computed with, so their width
  plays no role.  Every index the code computes is at most the array length
  plus four; arrays are taken to be shorter than `2^31 - 4`, so no index
  computation wraps and `Int` arithmetic is exact.
* A read or write outside the array is undefined in C; here it yields `none`.
* Every function returns the final contents of the array next to its result,
  since the C code works in place.
* Loops are recursive functions that test the loop condition of the source
  at each step and carry a fuel argument; running out of fuel yields `none`.
  The fuel given to a `for` loop is its trip count plus one.  The two
  recursive functions take their fuel from the caller.
* C division and remainder truncate: `Int.tdiv`, `Int.tmod`.
* Where a statement ranges over arguments that are not indices of a segment
  (a rank outside `1..n`, an inverted range), hypotheses `InInt` keep every
  `int` computation of the source in range, since `int` overflow is undefined.
-/

namespace Select

/-! ## Memory -/

/-- Read `arr[i]`. -/
def rd (arr : List Int) (i : Int) : Option Int :=
  if 0 ≤ i then arr[i.toNat]? else none

/-- Write `arr[i] = v`. -/
def wr (arr : List Int) (i : Int) (v : Int) : Option (List Int) :=
  if 0 ≤ i ∧ i.toNat < arr.length then some (arr.set i.toNat v) else none

/-- The call `swap(&arr[a], &arr[b])`: `temp = *a; *a = *b; *b = temp`. -/
def swap (arr : List Int) (a b : Int) : Option (List Int) :=
  match rd arr a with
  | none => none
  | some temp =>
    match rd arr b with
    | none => none
    | some vb =>
      match wr arr a vb with
      | none => none
      | some arr1 => wr arr1 b temp

/-! ## insertion_sort -/

/-- The inner loop `while (j >= left && arr[j] > key) { arr[j+1] = arr[j]; j--; }`
of `insertion_sort`.  Returns the array and the final `j`. -/
def insertion_shift (left key : Int) : Nat → List Int → Int → Option (List Int × Int)
  | 0, _, _ => none
  | fuel + 1, arr, j =>
    if j ≥ left then
      match rd arr j with
      | none => none
      | some aj =>
        if aj > key then
          match wr arr (j + 1) aj with
          | none => none
          | some arr1 => insertion_shift left key fuel arr1 (j - 1)
        else some (arr, j)
    else some (arr, j)

/-- The outer loop `for (i = left + 1; i <= right; i++)` of `insertion_sort`,
entered at `i`. -/
def insertion_sort_loop (left right : Int) : Nat → List Int → Int → Option (List Int)
  | 0, _, _ => none
  | fuel + 1, arr, i =>
    if i ≤ right then
      match rd arr i with
      | none => none
      | some key =>
        match insertion_shift left key ((i - left).toNat + 1) arr (i - 1) with
        | none => none
        | some (arr1, j) =>
          match wr arr1 (j + 1) key with
          | none => none
          | some arr2 => insertion_sort_loop left right fuel arr2 (i + 1)
    else some arr

/-- The function `void insertion_sort(int arr[], int left, int right)`. -/
def insertion_sort (arr : List Int) (left right : Int) : Option (List Int) :=
  insertion_sort_loop left right ((right - left).toNat + 1) arr (left + 1)

/-! ## find_median -/

/-- The function `int find_median(int arr[], int left, int right)`:
sorts the segment, returns `arr[left + (right - left) / 2]`. -/
def find_median (arr : List Int) (left right : Int) : Option (Int × List Int) :=
  match insertion_sort arr left right with
  | none => none
  | some arr1 =>
    match rd arr1 (left + Int.tdiv (right - left) 2) with
    | none => none
    | some v => some (v, arr1)

/-! ## median_of_medians -/

/-- The loop `for (i = 0; i < n / 5; i++) median[i] = find_median(arr, left + i*5, left + i*5 + 4);`
of `median_of_medians`, entered at `i`.  Returns `arr`, `median` and the final `i`. -/
def mom_groups (left n : Int) : Nat → List Int → List Int → Int →
    Option (List Int × List Int × Int)
  | 0, _, _, _ => none
  | fuel + 1, arr, median, i =>
    if i < Int.tdiv n 5 then
      match find_median arr (left + i * 5) (left + i * 5 + 4) with
      | none => none
      | some (m, arr1) =>
        match wr median i m with
        | none => none
        | some median1 => mom_groups left n fuel arr1 median1 (i + 1)
    else some (arr, median, i)

/-- What one activation of `median_of_medians` ends with: a returned value, or
the recursive call `median_of_medians(median, 0, i - 1)` on its local buffer.
Both carry the caller's array as the activation leaves it. -/
inductive MomStep where
  | done (v : Int) (arr : List Int)
  | call (median : List Int) (right : Int) (arr : List Int)
  deriving DecidableEq

/-- The body of `median_of_medians(arr, left, right)` down to its last
statement.  The buffer `int median[(n + 4) / 5]` starts with unspecified
contents; zeros stand for them. -/
def mom_step (arr : List Int) (left right : Int) : Option MomStep :=
  let n := right - left + 1
  let median0 := List.replicate (Int.tdiv (n + 4) 5).toNat (0 : Int)
  match mom_groups left n ((Int.tdiv n 5).toNat + 1) arr median0 0 with
  | none => none
  | some (arr1, median1, i1) =>
    let rest : Option (List Int × List Int × Int) :=
      if i1 * 5 < n then
        match find_median arr1 (left + i1 * 5) (left + i1 * 5 + Int.tmod n 5 - 1) with
        | none => none
        | some (m, arr2) =>
          match wr median1 i1 m with
          | none => none
          | some median2 => some (arr2, median2, i1 + 1)
      else some (arr1, median1, i1)
    match rest with
    | none => none
    | some (arr2, median2, i2) =>
      if i2 = 1 then
        match rd median2 0 with
        | none => none
        | some v => some (MomStep.done v arr2)
      else some (MomStep.call median2 (i2 - 1) arr2)

/-- The function `int median_of_medians(int arr[], int left, int right)`. -/
def median_of_medians : Nat → List Int → Int → Int → Option (Int × List Int)
  | 0, _, _, _ => none
  | fuel + 1, arr, left, right =>
    match mom_step arr left right with
    | none => none
    | some (MomStep.done v arr1) => some (v, arr1)
    | some (MomStep.call median r arr1) =>
      match median_of_medians fuel median 0 r with
      | none => none
      | some (v, _) => some (v, arr1)

/-! ## partition -/

/-- The first loop of `partition`:
`for (i = left; i < right; i++) if (arr[i] == pivot) { swap(&arr[i], &arr[right]); break; }`. -/
def partition_find (right pivot : Int) : Nat → List Int → Int → Option (List Int)
  | 0, _, _ => none
  | fuel + 1, arr, i =>
    if i < right then
      match rd arr i with
      | none => none
      | some ai =>
        if ai = pivot then swap arr i right
        else partition_find right pivot fuel arr (i + 1)
    else some arr

/-- The second loop of `partition`:
`for (int j = left; j < right; j++) if (arr[j] <= pivot) { swap(&arr[i], &arr[j]); i++; }`.
Returns the array and the final `i`. -/
def partition_scan (right pivot : Int) : Nat → List Int → Int → Int → Option (List Int × Int)
  | 0, _, _, _ => none
  | fuel + 1, arr, i, j =>
    if j < right then
      match rd arr j with
      | none => none
      | some aj =>
        if aj ≤ pivot then
          match swap arr i j with
          | none => none
          | some arr1 => partition_scan right pivot fuel arr1 (i + 1) (j + 1)
        else partition_scan right pivot fuel arr i (j + 1)
    else some (arr, i)

/-- The function `int partition(int arr[], int left, int right, int pivot)`. -/
def partition (arr : List Int) (left right pivot : Int) : Option (Int × List Int) :=
  match partition_find right pivot ((right - left).toNat + 1) arr left with
  | none => none
  | some arr1 =>
    match partition_scan right pivot ((right - left).toNat + 1) arr1 left left with
    | none => none
    | some (arr2, i) =>
      match swap arr2 i right with
      | none => none
      | some arr3 => some (i, arr3)

/-! ## linear_select -/

/-- What one activation of `linear_select` ends with: a returned value, or the
recursive call `linear_select(arr, left, right, k)` it makes. -/
inductive SelStep where
  | done (v : Int) (arr : List Int)
  | call (arr : List Int) (left right k : Int)
  deriving DecidableEq

/-- The body of `linear_select(arr, left, right, k)` down to its `return`.
The pivot search is given fuel equal to the segment length. -/
def select_step (arr : List Int) (left right k : Int) : Option SelStep :=
  if left = right then
    match rd arr left with
    | none => none
    | some v => some (SelStep.done v arr)
  else if right - left + 1 ≤ 5 then
    match insertion_sort arr left right with
    | none => none
    | some arr1 =>
      match rd arr1 (left + k - 1) with
      | none => none
      | some v => some (SelStep.done v arr1)
  else
    match median_of_medians (right - left + 1).toNat arr left right with
    | none => none
    | some (pivot, arr1) =>
      match partition arr1 left right pivot with
      | none => none
      | some (pos, arr2) =>
        let current_rank := pos - left + 1
        if k = current_rank then
          match rd arr2 pos with
          | none => none
          | some v => some (SelStep.done v arr2)
        else if k < current_rank then
          some (SelStep.call arr2 left (pos - 1) k)
        else
          some (SelStep.call arr2 (pos + 1) right (k - current_rank))

/-- The function `int linear_select(int arr[], int left, int right, int k)`. -/
def linear_select : Nat → List Int → Int → Int → Int → Option (Int × List Int)
  | 0, _, _, _, _ => none
  | fuel + 1, arr, left, right, k =>
    match select_step arr left right k with
    | none => none
    | some (SelStep.done v arr1) => some (v, arr1)
    | some (SelStep.call arr1 l r k1) => linear_select fuel arr1 l r k1

/-! ## Vocabulary of the statements -/

/-- The elements `arr[left..right]`, both ends included. -/
def segment (arr : List Int) (left right : Int) : List Int :=
  (arr.drop left.toNat).take (right - left + 1).toNat

/-- Ascending sort, the reference the results are compared with. -/
def sorted (l : List Int) : List Int := l.insertionSort (· ≤ ·)

/-- The list `T` has `v` at position `i`, nothing larger before it and nothing
smaller after it. -/
def NthAt (T : List Int) (i : Nat) (v : Int) : Prop :=
  ∃ A B, T = A ++ v :: B ∧ A.length = i ∧ (∀ a ∈ A, a ≤ v) ∧ (∀ b ∈ B, v ≤ b)

/-- The value `x` fits a C `int` (32 bits, two's complement). -/
abbrev InInt (x : Int) : Prop := -2147483648 ≤ x ∧ x ≤ 2147483647

/-! ## Inputs used below -/

/-- The array of test 9 in `main`: `arr9[i] = 50 - i`. -/
def arr9 : List Int := (List.range 50).map (fun (i : Nat) => 50 - (i : Int))

/-- Thirty-five distinct values whose last group holds the five smallest. -/
def arr35 : List Int := (List.range 30).map (fun (i : Nat) => (i : Int) + 6) ++ [1, 2, 3, 4, 5]

/-! ## Memory lemmas -/

theorem rd_mid (a b : List Int) (x : Int) (i : Int) (hi : i = (a.length : Int)) :
    rd (a ++ x :: b) i = some x := by
  subst hi
  have h : (a ++ x :: b)[a.length]? = some x := by
    rw [List.getElem?_append_right (le_refl _)]
    simp
  simpa [rd] using h

theorem wr_mid (a b : List Int) (x v : Int) (i : Int) (hi : i = (a.length : Int)) :
    wr (a ++ x :: b) i v = some (a ++ v :: b) := by
  subst hi
  simp [wr]

theorem swap_mid (a b c : List Int) (x y : Int) (i j : Int) (hi : i = (a.length : Int))
    (hj : j = (a.length : Int) + 1 + (b.length : Int)) :
    swap (a ++ x :: (b ++ y :: c)) i j = some (a ++ y :: (b ++ x :: c)) := by
  have e1 : ∀ u : Int, a ++ u :: (b ++ y :: c) = (a ++ u :: b) ++ y :: c := by intro u; simp
  have hj' : j = (((a ++ x :: b).length : Nat) : Int) := by simp [hj]; omega
  have hj2 : j = (((a ++ y :: b).length : Nat) : Int) := by simp [hj]; omega
  unfold swap
  rw [rd_mid a _ x i hi]
  simp only []
  rw [e1 x, rd_mid _ c y j hj', ← e1 x]
  simp only []
  rw [wr_mid a _ x y i hi]
  simp only []
  rw [e1 y, wr_mid _ c y x j hj2]
  simp

theorem swap_self (a b : List Int) (x : Int) (i : Int) (hi : i = (a.length : Int)) :
    swap (a ++ x :: b) i i = some (a ++ x :: b) := by
  unfold swap
  rw [rd_mid a b x i hi]
  simp only []
  rw [wr_mid a b x x i hi]
  simp only []
  rw [wr_mid a b x x i hi]

/-! ## Lemmas: insertion_sort and find_median -/

theorem insertion_shift_spec (key : Int) (pre rest : List Int) (A : List Int) :
    ∀ (B : List Int) (h : Int) (fuel : Nat), A.length < fuel → (∀ b ∈ B, key < b) →
    ∃ A' B' h', insertion_shift pre.length key fuel (pre ++ A ++ h :: (B ++ rest))
          ((pre.length : Int) + A.length - 1)
        = some (pre ++ A' ++ h' :: (B' ++ rest), (pre.length : Int) + A'.length - 1)
      ∧ A' ++ B' = A ++ B ∧ (∀ b ∈ B', key < b) ∧ (∀ a ∈ A'.getLast?, a ≤ key) := by
  induction A using List.reverseRecOn with
  | nil =>
    intro B h fuel hf hB
    obtain ⟨f, rfl⟩ : ∃ f, fuel = f + 1 := ⟨fuel - 1, by omega⟩
    refine ⟨[], B, h, ?_, rfl, hB, by simp⟩
    unfold insertion_shift
    have : ¬ ((pre.length : Int) + (([] : List Int).length : Nat) - 1 ≥ (pre.length : Int)) := by
      simp
    rw [if_neg this]
  | append_singleton A0 x ih =>
    intro B h fuel hf hB
    obtain ⟨f, rfl⟩ : ∃ f, fuel = f + 1 := ⟨fuel - 1, by omega⟩
    have hlen : (A0 ++ [x]).length = A0.length + 1 := by simp
    have hj : (pre.length : Int) + ((A0 ++ [x]).length : Nat) - 1
        = (pre.length : Int) + A0.length := by rw [hlen]; push_cast; omega
    have e1 : pre ++ (A0 ++ [x]) ++ h :: (B ++ rest)
        = (pre ++ A0) ++ x :: (h :: (B ++ rest)) := by simp
    have e2 : pre ++ (A0 ++ [x]) ++ h :: (B ++ rest)
        = (pre ++ A0 ++ [x]) ++ h :: (B ++ rest) := by simp
    have hrd : rd (pre ++ (A0 ++ [x]) ++ h :: (B ++ rest)) ((pre.length : Int) + A0.length)
        = some x := by
      rw [e1]; exact rd_mid _ _ _ _ (by simp)
    unfold insertion_shift
    rw [hj, if_pos (by omega), hrd]
    simp only []
    by_cases hx : x > key
    · rw [if_pos hx]
      have hwr : wr (pre ++ (A0 ++ [x]) ++ h :: (B ++ rest)) ((pre.length : Int) + A0.length + 1) x
          = some (pre ++ A0 ++ x :: ((x :: B) ++ rest)) := by
        rw [e2, wr_mid _ _ _ _ _ (by simp; omega)]
        simp
      rw [hwr]
      simp only []
      have hB' : ∀ b ∈ x :: B, key < b := by
        intro b hb
        rcases List.mem_cons.mp hb with rfl | hb
        · exact hx
        · exact hB b hb
      obtain ⟨A', B', h', hrun, hcat, hB'', hlast⟩ := ih (x :: B) x f (by rw [hlen] at hf; omega) hB'
      refine ⟨A', B', h', ?_, ?_, hB'', hlast⟩
      · rw [← hrun]
      · rw [hcat]; simp
    · rw [if_neg hx]
      refine ⟨A0 ++ [x], B, h, ?_, rfl, hB, ?_⟩
      · rw [hj]
      · intro a ha
        simp at ha
        subst ha
        omega

theorem sorted_insert_mid (A B : List Int) (key : Int) (hs : (A ++ B).Sorted (· ≤ ·))
    (hB : ∀ b ∈ B, key < b) (hA : ∀ a ∈ A.getLast?, a ≤ key) :
    (A ++ key :: B).Sorted (· ≤ ·) := by
  unfold List.Sorted at *
  rw [List.pairwise_append] at hs ⊢
  obtain ⟨hAs, hBs, hAB⟩ := hs
  have hAk : ∀ a ∈ A, a ≤ key := by
    intro a ha
    rcases List.eq_nil_or_concat A with rfl | ⟨A0, l, rfl⟩
    · simp at ha
    · rw [List.concat_eq_append] at hA hAs ha
      have hl : l ≤ key := hA l (by simp)
      rw [List.mem_append] at ha
      rcases ha with ha | ha
      · rw [List.pairwise_append] at hAs
        have := hAs.2.2 a ha l (by simp)
        omega
      · simp at ha
        omega
  refine ⟨hAs, ?_, ?_⟩
  · rw [List.pairwise_cons]
    exact ⟨fun b hb => le_of_lt (hB b hb), hBs⟩
  · intro a ha b hb
    rcases List.mem_cons.mp hb with rfl | hb
    · exact hAk a ha
    · exact hAB a ha b hb

theorem insertion_sort_loop_spec (pre post : List Int) (U : List Int) :
    ∀ (S : List Int) (fuel : Nat), S ≠ [] → S.Sorted (· ≤ ·) → U.length < fuel →
    ∃ T, insertion_sort_loop pre.length ((pre.length : Int) + S.length + U.length - 1) fuel
          (pre ++ S ++ (U ++ post)) ((pre.length : Int) + S.length)
        = some (pre ++ T ++ post) ∧ T.Sorted (· ≤ ·) ∧ T.Perm (S ++ U) := by
  induction U with
  | nil =>
    intro S fuel hS hsort hf
    obtain ⟨f, rfl⟩ : ∃ f, fuel = f + 1 := ⟨fuel - 1, by omega⟩
    refine ⟨S, ?_, hsort, by simp⟩
    unfold insertion_sort_loop
    rw [if_neg (by simp)]
    simp
  | cons key U ih =>
    intro S fuel hS hsort hf
    obtain ⟨f, rfl⟩ : ∃ f, fuel = f + 1 := ⟨fuel - 1, by omega⟩
    have hlen : (key :: U).length = U.length + 1 := by simp
    have e1 : pre ++ S ++ (key :: U ++ post) = (pre ++ S) ++ key :: (U ++ post) := by simp
    unfold insertion_sort_loop
    rw [if_pos (by rw [hlen]; push_cast; omega), e1, rd_mid _ _ _ _ (by simp)]
    simp only []
    obtain ⟨A', B', h', hrun, hcat, hB', hlast⟩ :=
      insertion_shift_spec key pre (U ++ post) S [] key (S.length + 1) (by omega) (by simp)
    have e2 : (pre ++ S) ++ key :: (U ++ post) = pre ++ S ++ key :: ([] ++ (U ++ post)) := by simp
    have e3 : ((pre.length : Int) + S.length - (pre.length : Int)).toNat + 1 = S.length + 1 := by
      simp
    have e4 : (pre.length : Int) + S.length - 1 = (pre.length : Int) + S.length - 1 := rfl
    rw [e3, e2, hrun]
    simp only []
    have e5 : pre ++ A' ++ h' :: (B' ++ (U ++ post)) = (pre ++ A') ++ h' :: (B' ++ (U ++ post)) := by
      simp
    rw [wr_mid _ _ _ _ _ (by simp)]
    simp only []
    have hsort' : (A' ++ key :: B').Sorted (· ≤ ·) :=
      sorted_insert_mid A' B' key (by rw [hcat]; simpa using hsort) hB' hlast
    obtain ⟨T, hT, hTs, hTp⟩ := ih (A' ++ key :: B') f (by simp) hsort' (by rw [hlen] at hf; omega)
    have hl : (A' ++ key :: B').length = S.length + 1 := by
      have := congrArg List.length hcat
      simp at this ⊢
      omega
    refine ⟨T, ?_, hTs, ?_⟩
    · rw [← hT]
      congr 1
      · rw [hl, hlen]; push_cast; omega
      · simp
      · rw [hl]; push_cast; omega
    · refine hTp.trans ?_
      have : (A' ++ key :: B').Perm (key :: S) := by
        have h1 : (A' ++ key :: B').Perm (key :: (A' ++ B')) := List.perm_middle
        rw [hcat] at h1
        simpa using h1
      have h2 : (A' ++ key :: B' ++ U).Perm (key :: S ++ U) := this.append_right U
      refine h2.trans ?_
      simpa using (@List.perm_middle _ key S U).symm

theorem rd_frame (pre T post : List Int) (i : Nat) (hi : i < T.length) (j : Int)
    (hj : j = (pre.length : Int) + i) : rd (pre ++ T ++ post) j = T[i]? := by
  subst hj
  have h0 : (0 : Int) ≤ (pre.length : Int) + i := by omega
  have h1 : ((pre.length : Int) + i).toNat = pre.length + i := by omega
  unfold rd
  rw [if_pos h0, h1, List.append_assoc, List.getElem?_append_right (by omega),
    List.getElem?_append_left (by omega)]
  congr 1
  omega

theorem sorted_sorted (l : List Int) : (sorted l).Sorted (· ≤ ·) :=
  List.sorted_insertionSort _ l

theorem sorted_perm (l : List Int) : (sorted l).Perm l :=
  List.perm_insertionSort _ l

theorem sorted_length (l : List Int) : (sorted l).length = l.length :=
  (sorted_perm l).length_eq

theorem sorted_unique (l T : List Int) (hs : T.Sorted (· ≤ ·)) (hp : T.Perm l) : T = sorted l :=
  List.eq_of_perm_of_sorted (hp.trans (sorted_perm l).symm) hs (sorted_sorted l)

theorem sorted_congr (l₁ l₂ : List Int) (hp : l₁.Perm l₂) : sorted l₁ = sorted l₂ :=
  sorted_unique l₂ (sorted l₁) (sorted_sorted l₁) ((sorted_perm l₁).trans hp)

theorem insertion_sort_frame (pre seg post : List Int) (hseg : seg ≠ []) (left right : Int)
    (hl : left = (pre.length : Int)) (hr : right = (pre.length : Int) + seg.length - 1) :
    insertion_sort (pre ++ seg ++ post) left right = some (pre ++ sorted seg ++ post) := by
  subst hl hr
  obtain ⟨x, U, rfl⟩ := List.exists_cons_of_ne_nil hseg
  obtain ⟨T, hT, hTs, hTp⟩ :=
    insertion_sort_loop_spec pre post U [x] (U.length + 1) (by simp) (by simp) (by omega)
  have hTe : T = sorted (x :: U) := sorted_unique _ T hTs (by simpa using hTp)
  unfold insertion_sort
  have a1 : ((pre.length : Int) + ((x :: U).length : Nat) - 1 - (pre.length : Int)).toNat + 1
      = U.length + 1 := by
    simp only [List.length_cons]; push_cast; omega
  have a2 : (pre.length : Int) + ((x :: U).length : Nat) - 1
      = (pre.length : Int) + ([x].length : Nat) + (U.length : Nat) - 1 := by
    simp only [List.length_cons, List.length_nil]; push_cast; omega
  have a3 : pre ++ (x :: U) ++ post = pre ++ [x] ++ (U ++ post) := by simp
  have a4 : (pre.length : Int) + 1 = (pre.length : Int) + ([x].length : Nat) := by simp
  rw [a1, a2, a3, a4, hT, hTe]

theorem find_median_frame (pre seg post : List Int) (hseg : seg ≠ []) (left right : Int)
    (hl : left = (pre.length : Int)) (hr : right = (pre.length : Int) + seg.length - 1) :
    ∃ v, find_median (pre ++ seg ++ post) left right = some (v, pre ++ sorted seg ++ post)
      ∧ (sorted seg)[(seg.length - 1) / 2]? = some v := by
  have hpos : 0 < seg.length := List.length_pos.mpr hseg
  have hlt : (seg.length - 1) / 2 < (sorted seg).length := by
    rw [sorted_length]; omega
  refine ⟨(sorted seg)[(seg.length - 1) / 2], ?_, by simp⟩
  unfold find_median
  rw [insertion_sort_frame pre seg post hseg left right hl hr]
  simp only []
  have hidx : left + Int.tdiv (right - left) 2 = (pre.length : Int) + ((seg.length - 1) / 2 : Nat) := by
    subst hl hr
    rw [Int.tdiv_eq_ediv (by omega) (by omega)]
    push_cast
    omega
  rw [rd_frame pre (sorted seg) post _ hlt _ hidx, List.getElem?_eq_getElem hlt]

/-! ## Lemmas: median_of_medians -/

theorem mom_groups_spec (pre tail post : List Int) (n : Int) (g : Nat) :
    ∀ (D R md mr : List Int) (fuel : Nat),
      R.length = 5 * g → D.length = 5 * md.length → g ≤ mr.length → g < fuel →
      n = (D.length : Int) + R.length + tail.length → tail.length < 5 →
      ∃ R' meds, mom_groups pre.length n fuel (pre ++ D ++ R ++ (tail ++ post)) (md ++ mr)
            md.length
          = some (pre ++ D ++ R' ++ (tail ++ post), md ++ meds ++ mr.drop g, (md.length : Int) + g)
        ∧ R'.Perm R ∧ meds.length = g ∧ ∀ m ∈ meds, m ∈ R := by
  induction g with
  | zero =>
    intro D R md mr fuel hR hD hmr hf hn ht
    obtain ⟨f, rfl⟩ : ∃ f, fuel = f + 1 := ⟨fuel - 1, by omega⟩
    have hR0 : R = [] := List.length_eq_zero.mp (by omega)
    subst hR0
    refine ⟨[], [], ?_, List.Perm.refl _, rfl, by simp⟩
    unfold mom_groups
    have hc : ¬ ((md.length : Int) < Int.tdiv n 5) := by
      rw [Int.tdiv_eq_ediv (by omega) (by omega)]
      simp only [List.length_nil] at hn
      omega
    rw [if_neg hc]
    simp
  | succ g ih =>
    intro D R md mr fuel hR hD hmr hf hn ht
    obtain ⟨f, rfl⟩ : ∃ f, fuel = f + 1 := ⟨fuel - 1, by omega⟩
    obtain ⟨z, mr1, rfl⟩ : ∃ z mr1, mr = z :: mr1 := by
      cases mr with
      | nil => simp at hmr
      | cons z mr1 => exact ⟨z, mr1, rfl⟩
    have hRs : R = R.take 5 ++ R.drop 5 := (List.take_append_drop 5 R).symm
    have hG : (R.take 5).length = 5 := by rw [List.length_take]; omega
    have hR1 : (R.drop 5).length = 5 * g := by rw [List.length_drop]; omega
    generalize R.take 5 = G at hRs hG
    generalize R.drop 5 = R1 at hRs hR1
    subst hRs
    have hGne : G ≠ [] := by intro h; rw [h] at hG; simp at hG
    have hc : (md.length : Int) < Int.tdiv n 5 := by
      rw [Int.tdiv_eq_ediv (by omega) (by omega)]
      simp only [List.length_append] at hn
      omega
    have e1 : pre ++ D ++ (G ++ R1) ++ (tail ++ post) = (pre ++ D) ++ G ++ (R1 ++ (tail ++ post)) := by
      simp
    obtain ⟨v, hfm, hv⟩ := find_median_frame (pre ++ D) G (R1 ++ (tail ++ post)) hGne
      ((pre.length : Int) + (md.length : Int) * 5) ((pre.length : Int) + (md.length : Int) * 5 + 4)
      (by simp; omega) (by simp; omega)
    have hvG : v ∈ G := (sorted_perm G).subset (List.getElem?_mem hv)
    unfold mom_groups
    rw [if_pos hc, e1, hfm]
    simp only []
    rw [wr_mid md mr1 z v _ rfl]
    simp only []
    obtain ⟨R', meds, hrun, hperm, hlen, hmem⟩ := ih (D ++ sorted G) R1 (md ++ [v]) mr1 f hR1
      (by simp [sorted_length]; omega) (by simpa using hmr) (by omega)
      (by simp only [List.length_append, sorted_length] at hn ⊢; push_cast at hn ⊢; omega) ht
    refine ⟨sorted G ++ R', v :: meds, ?_, ?_, by simp [hlen], ?_⟩
    · have e2 : pre ++ D ++ sorted G ++ (R1 ++ (tail ++ post))
          = pre ++ (D ++ sorted G) ++ R1 ++ (tail ++ post) := by simp
      have e3 : md ++ v :: mr1 = (md ++ [v]) ++ mr1 := by simp
      have e4 : (md.length : Int) + 1 = (((md ++ [v]).length : Nat) : Int) := by simp
      rw [e2, e3, e4, hrun]
      simp
      omega
    · exact (sorted_perm G).append hperm
    · intro m hm
      rcases List.mem_cons.mp hm with rfl | hm
      · exact List.mem_append_left _ hvG
      · exact List.mem_append_right _ (hmem m hm)

theorem mom_step_spec (pre seg post : List Int) (hseg : seg ≠ []) (left right : Int)
    (hl : left = (pre.length : Int)) (hr : right = (pre.length : Int) + seg.length - 1) :
    ∃ seg', seg'.Perm seg ∧
      ((∃ v, mom_step (pre ++ seg ++ post) left right = some (MomStep.done v (pre ++ seg' ++ post))
          ∧ v ∈ seg ∧ seg.length ≤ 5) ∨
       (∃ med, mom_step (pre ++ seg ++ post) left right
            = some (MomStep.call med ((med.length : Int) - 1) (pre ++ seg' ++ post))
          ∧ 2 ≤ med.length ∧ seg.length ≤ 5 * med.length ∧ 5 * med.length < seg.length + 5
          ∧ ∀ m ∈ med, m ∈ seg)) := by
  subst hl hr
  have hpos : 0 < seg.length := List.length_pos.mpr hseg
  obtain ⟨g, hg⟩ : ∃ g, g = seg.length / 5 := ⟨_, rfl⟩
  have hsplit : seg = seg.take (5 * g) ++ seg.drop (5 * g) := (List.take_append_drop _ _).symm
  have hRl : (seg.take (5 * g)).length = 5 * g := by rw [List.length_take]; omega
  have htl : (seg.drop (5 * g)).length = seg.length % 5 := by rw [List.length_drop]; omega
  generalize seg.take (5 * g) = R at hsplit hRl
  generalize seg.drop (5 * g) = tail at hsplit htl
  have hn : (pre.length : Int) + seg.length - 1 - pre.length + 1 = (seg.length : Int) := by omega
  have hM : (Int.tdiv ((seg.length : Int) + 4) 5).toNat = (seg.length + 4) / 5 := by
    rw [Int.tdiv_eq_ediv (by omega) (by omega)]; omega
  have hG : (Int.tdiv (seg.length : Int) 5).toNat = g := by
    rw [Int.tdiv_eq_ediv (by omega) (by omega)]; omega
  have hT : Int.tmod (seg.length : Int) 5 = (tail.length : Int) := by
    rw [Int.tmod_eq_emod (by omega) (by omega)]; omega
  obtain ⟨R', meds, hrun, hperm, hlen, hmem⟩ := mom_groups_spec pre tail post seg.length g [] R []
    (List.replicate ((seg.length + 4) / 5) 0) (g + 1) hRl rfl (by simp; omega) (by omega)
    (by rw [hsplit]; simp) (by omega)
  have harr : pre ++ seg ++ post = pre ++ [] ++ R ++ (tail ++ post) := by rw [hsplit]; simp
  have hmemR : ∀ m ∈ R, m ∈ seg := by
    intro m hm; rw [hsplit]; exact List.mem_append_left _ hm
  have hmemT : ∀ m ∈ tail, m ∈ seg := by
    intro m hm; rw [hsplit]; exact List.mem_append_right _ hm
  have hrun' : mom_groups pre.length seg.length (g + 1) (pre ++ seg ++ post)
      (List.replicate ((seg.length + 4) / 5) 0) 0
      = some (pre ++ R' ++ (tail ++ post),
          meds ++ List.replicate ((seg.length + 4) / 5 - g) 0, (g : Int)) := by
    rw [← harr] at hrun
    simpa using hrun
  unfold mom_step
  simp only [hn, hM, hG]
  rw [hrun']
  simp only []
  by_cases htail : tail = []
  · -- no partial group
    subst htail
    simp only [List.length_nil] at htl
    have hi : ¬ ((g : Int) * 5 < (seg.length : Int)) := by omega
    have hMg : (seg.length + 4) / 5 - g = 0 := by omega
    rw [if_neg hi, hMg]
    simp only [List.replicate_zero, List.append_nil]
    refine ⟨R', ?_, ?_⟩
    · rw [hsplit]; simpa using hperm
    by_cases h1 : g = 1
    · left
      obtain ⟨v, rfl⟩ : ∃ v, meds = [v] := by
        rw [h1] at hlen
        exact List.length_eq_one.mp hlen
      refine ⟨v, ?_, hmemR v (hmem v (by simp)), by omega⟩
      rw [if_pos (by omega)]
      simp [rd]
    · right
      refine ⟨meds, ?_, by omega, by omega, by omega, fun m hm => hmemR m (hmem m hm)⟩
      rw [if_neg (by omega)]
      simp [hlen]
  · -- a partial group of `n % 5` elements
    have htpos : 0 < tail.length := List.length_pos.mpr htail
    have hi : (g : Int) * 5 < (seg.length : Int) := by omega
    have hMg : (seg.length + 4) / 5 - g = 1 := by omega
    obtain ⟨v, hfm, hv⟩ := find_median_frame (pre ++ R') tail post htail
      ((pre.length : Int) + (g : Int) * 5)
      ((pre.length : Int) + (g : Int) * 5 + Int.tmod (seg.length : Int) 5 - 1)
      (by simp [hperm.length_eq, hRl]; omega) (by simp [hperm.length_eq, hRl, hT]; omega)
    have hvT : v ∈ tail := (sorted_perm tail).subset (List.getElem?_mem hv)
    have e1 : pre ++ R' ++ (tail ++ post) = pre ++ R' ++ tail ++ post := by simp
    rw [if_pos hi, hMg, e1, hfm]
    simp only [List.replicate_one]
    rw [wr_mid meds [] 0 v _ (by simp [hlen])]
    simp only []
    refine ⟨R' ++ sorted tail, ?_, ?_⟩
    · rw [hsplit]; exact hperm.append (sorted_perm tail)
    have hmem2 : ∀ m ∈ meds ++ [v], m ∈ seg := by
      intro m hm
      rcases List.mem_append.mp hm with hm | hm
      · exact hmemR m (hmem m hm)
      · simp at hm; subst hm; exact hmemT m hvT
    by_cases h1 : g = 0
    · left
      obtain rfl : meds = [] := List.length_eq_zero.mp (by omega)
      refine ⟨v, ?_, hmemT v hvT, by omega⟩
      rw [if_pos (by omega)]
      simp [rd]
    · right
      refine ⟨meds ++ [v], ?_, by simp; omega, by simp; omega, by simp; omega, hmem2⟩
      rw [if_neg (by omega)]
      simp [hlen]

theorem median_of_medians_spec (fuel : Nat) :
    ∀ (pre seg post : List Int) (left right : Int), seg ≠ [] → seg.length ≤ fuel →
      left = (pre.length : Int) → right = (pre.length : Int) + seg.length - 1 →
      ∃ v seg', median_of_medians fuel (pre ++ seg ++ post) left right
          = some (v, pre ++ seg' ++ post) ∧ seg'.Perm seg ∧ v ∈ seg := by
  induction fuel with
  | zero =>
    intro pre seg post left right hseg hf
    have := List.length_pos.mpr hseg
    omega
  | succ fuel ih =>
    intro pre seg post left right hseg hf hl hr
    obtain ⟨seg', hperm, h⟩ := mom_step_spec pre seg post hseg left right hl hr
    unfold median_of_medians
    rcases h with ⟨v, hstep, hv, _⟩ | ⟨med, hstep, h2, _, h5, hmem⟩
    · rw [hstep]
      exact ⟨v, seg', rfl, hperm, hv⟩
    · have hne : med ≠ [] := by intro h; rw [h] at h2; simp at h2
      obtain ⟨v, med', hrun, _, hv⟩ := ih [] med [] 0 ((med.length : Int) - 1) hne (by omega)
        (by simp) (by simp)
      simp only [List.nil_append, List.append_nil] at hrun
      rw [hstep]
      simp only []
      rw [hrun]
      exact ⟨v, seg', rfl, hperm, hmem v hv⟩

/-! ## Lemmas: partition -/

theorem partition_find_spec (pre post : List Int) (pivot last : Int) (Q : List Int) :
    ∀ (P : List Int) (fuel : Nat), Q.length < fuel → pivot ∈ Q ++ [last] →
      ∃ Q', partition_find ((pre.length : Int) + P.length + Q.length) pivot fuel
            (pre ++ P ++ Q ++ last :: post) ((pre.length : Int) + P.length)
          = some (pre ++ P ++ Q' ++ pivot :: post) ∧ (Q' ++ [pivot]).Perm (Q ++ [last]) := by
  induction Q with
  | nil =>
    intro P fuel hf hp
    obtain ⟨f, rfl⟩ : ∃ f, fuel = f + 1 := ⟨fuel - 1, by omega⟩
    have hpl : pivot = last := by simpa using hp
    subst hpl
    refine ⟨[], ?_, List.Perm.refl _⟩
    unfold partition_find
    rw [if_neg (by simp)]
  | cons x Q ih =>
    intro P fuel hf hp
    obtain ⟨f, rfl⟩ : ∃ f, fuel = f + 1 := ⟨fuel - 1, by omega⟩
    have hlen : (x :: Q).length = Q.length + 1 := by simp
    have e1 : pre ++ P ++ (x :: Q) ++ last :: post = (pre ++ P) ++ x :: (Q ++ last :: post) := by
      simp
    unfold partition_find
    rw [if_pos (by rw [hlen]; push_cast; omega), e1, rd_mid _ _ _ _ (by simp)]
    simp only []
    by_cases hx : x = pivot
    · rw [if_pos hx]
      refine ⟨last :: Q, ?_, ?_⟩
      · rw [swap_mid (pre ++ P) Q post x last _ _ (by simp) (by rw [hlen]; simp; omega)]
        subst hx
        simp
      · subst hx
        have h1 : (last :: (Q ++ [x])).Perm (last :: x :: Q) :=
          List.Perm.cons last (@List.perm_append_comm _ Q [x])
        have h2 : (last :: x :: Q).Perm (x :: last :: Q) := List.Perm.swap x last Q
        have h3 : (x :: last :: Q).Perm (x :: (Q ++ [last])) :=
          List.Perm.cons x (@List.perm_append_comm _ [last] Q)
        simpa using h1.trans (h2.trans h3)
    · rw [if_neg hx]
      have hp' : pivot ∈ Q ++ [last] := by
        simp only [List.cons_append, List.mem_cons] at hp
        rcases hp with h | h
        · exact absurd h.symm hx
        · exact h
      obtain ⟨Q', hrun, hperm⟩ := ih (P ++ [x]) f (by rw [hlen] at hf; omega) hp'
      refine ⟨x :: Q', ?_, by simpa using hperm⟩
      have e2 : (pre ++ P) ++ x :: (Q ++ last :: post) = pre ++ (P ++ [x]) ++ Q ++ last :: post := by
        simp
      have e3 : (pre.length : Int) + P.length + ((x :: Q).length : Nat)
          = (pre.length : Int) + ((P ++ [x]).length : Nat) + Q.length := by
        simp; omega
      have e4 : (pre.length : Int) + P.length + 1 = (pre.length : Int) + ((P ++ [x]).length : Nat) := by
        simp; omega
      rw [e2, e3, e4, hrun]
      simp

theorem partition_scan_spec (pre post : List Int) (pivot pv : Int) (Q : List Int) :
    ∀ (LE GT : List Int) (fuel : Nat), Q.length < fuel →
      (∀ x ∈ LE, x ≤ pivot) → (∀ x ∈ GT, pivot < x) →
      ∃ LE' GT', partition_scan ((pre.length : Int) + LE.length + GT.length + Q.length) pivot fuel
            (pre ++ LE ++ GT ++ Q ++ pv :: post) ((pre.length : Int) + LE.length)
            ((pre.length : Int) + LE.length + GT.length)
          = some (pre ++ LE' ++ GT' ++ pv :: post, (pre.length : Int) + LE'.length)
        ∧ (LE' ++ GT').Perm (LE ++ GT ++ Q) ∧ (∀ x ∈ LE', x ≤ pivot) ∧ (∀ x ∈ GT', pivot < x) := by
  induction Q with
  | nil =>
    intro LE GT fuel hf hLE hGT
    obtain ⟨f, rfl⟩ : ∃ f, fuel = f + 1 := ⟨fuel - 1, by omega⟩
    refine ⟨LE, GT, ?_, by simp, hLE, hGT⟩
    unfold partition_scan
    rw [if_neg (by simp)]
    simp
  | cons x Q ih =>
    intro LE GT fuel hf hLE hGT
    obtain ⟨f, rfl⟩ : ∃ f, fuel = f + 1 := ⟨fuel - 1, by omega⟩
    have hlen : (x :: Q).length = Q.length + 1 := by simp
    have e1 : pre ++ LE ++ GT ++ (x :: Q) ++ pv :: post
        = (pre ++ LE ++ GT) ++ x :: (Q ++ pv :: post) := by simp
    unfold partition_scan
    rw [if_pos (by rw [hlen]; push_cast; omega), e1, rd_mid _ _ _ _ (by simp; omega)]
    simp only []
    by_cases hx : x ≤ pivot
    · rw [if_pos hx]
      have hLE' : ∀ y ∈ LE ++ [x], y ≤ pivot := by
        intro y hy
        rcases List.mem_append.mp hy with hy | hy
        · exact hLE y hy
        · simp at hy; subst hy; exact hx
      cases GT with
      | nil =>
        obtain ⟨LE', GT', hrun, hperm, h1, h2⟩ :=
          ih (LE ++ [x]) [] f (by rw [hlen] at hf; omega) hLE' (by simp)
        refine ⟨LE', GT', ?_, ?_, h1, h2⟩
        · have e2 : pre ++ LE ++ [] ++ x :: (Q ++ pv :: post)
              = (pre ++ LE) ++ x :: (Q ++ pv :: post) := by simp
          rw [e2]
          have e0 : (pre.length : Int) + LE.length + (([] : List Int).length : Nat)
              = (pre.length : Int) + LE.length := by simp
          rw [e0, swap_self _ _ _ _ (by simp)]
          simp only []
          rw [← hrun]
          congr 1
          · simp; omega
          · simp
          · simp; omega
          · simp; omega
        · simpa using hperm
      | cons g G1 =>
        have hGT' : ∀ y ∈ G1 ++ [g], pivot < y := by
          intro y hy
          rcases List.mem_append.mp hy with hy | hy
          · exact hGT y (List.mem_cons_of_mem _ hy)
          · simp at hy; subst hy; exact hGT y (List.mem_cons_self _ _)
        obtain ⟨LE', GT', hrun, hperm, h1, h2⟩ :=
          ih (LE ++ [x]) (G1 ++ [g]) f (by rw [hlen] at hf; omega) hLE' hGT'
        refine ⟨LE', GT', ?_, ?_, h1, h2⟩
        · have e2 : pre ++ LE ++ (g :: G1) ++ x :: (Q ++ pv :: post)
              = (pre ++ LE) ++ g :: (G1 ++ x :: (Q ++ pv :: post)) := by simp
          rw [e2, swap_mid (pre ++ LE) G1 _ g x _ _ (by simp) (by simp; omega)]
          simp only []
          rw [← hrun]
          congr 1
          · simp; omega
          · simp
          · simp; omega
          · simp; omega
        · refine hperm.trans ?_
          have h3 : (G1 ++ [g]).Perm (g :: G1) := @List.perm_append_comm _ G1 [g]
          have h4 : (LE ++ [x] ++ (G1 ++ [g]) ++ Q).Perm (LE ++ ([x] ++ (g :: G1)) ++ Q) := by
            simpa using (List.Perm.append_left (LE ++ [x]) h3).append_right Q
          have h5 : ([x] ++ (g :: G1)).Perm ((g :: G1) ++ [x]) := @List.perm_append_comm _ [x] (g :: G1)
          have h6 : (LE ++ ([x] ++ (g :: G1)) ++ Q).Perm (LE ++ ((g :: G1) ++ [x]) ++ Q) :=
            (List.Perm.append_left LE h5).append_right Q
          simpa using h4.trans h6
    · rw [if_neg hx]
      have hGT' : ∀ y ∈ GT ++ [x], pivot < y := by
        intro y hy
        rcases List.mem_append.mp hy with hy | hy
        · exact hGT y hy
        · simp at hy; subst hy; omega
      obtain ⟨LE', GT', hrun, hperm, h1, h2⟩ :=
        ih LE (GT ++ [x]) f (by rw [hlen] at hf; omega) hLE hGT'
      refine ⟨LE', GT', ?_, by simpa using hperm, h1, h2⟩
      rw [← hrun]
      congr 1
      · simp; omega
      · simp
      · simp; omega

theorem partition_frame (pre seg post : List Int) (pivot : Int) (hmem : pivot ∈ seg)
    (left right : Int) (hl : left = (pre.length : Int))
    (hr : right = (pre.length : Int) + seg.length - 1) :
    ∃ L R, partition (pre ++ seg ++ post) left right pivot
        = some ((pre.length : Int) + L.length, pre ++ L ++ pivot :: R ++ post)
      ∧ (L ++ pivot :: R).Perm seg ∧ (∀ x ∈ L, x ≤ pivot) ∧ (∀ x ∈ R, pivot < x) := by
  subst hl hr
  rcases List.eq_nil_or_concat seg with rfl | ⟨Q, last, rfl⟩
  · simp at hmem
  rw [List.concat_eq_append] at hmem ⊢
  have hfuel : ((pre.length : Int) + ((Q ++ [last]).length : Nat) - 1 - (pre.length : Int)).toNat + 1
      = Q.length + 1 := by
    simp only [List.length_append, List.length_singleton]; push_cast; omega
  have hright : (pre.length : Int) + ((Q ++ [last]).length : Nat) - 1
      = (pre.length : Int) + Q.length := by
    simp only [List.length_append, List.length_singleton]; push_cast; omega
  obtain ⟨Q', hfind, hperm1⟩ := partition_find_spec pre post pivot last Q [] (Q.length + 1)
    (by omega) hmem
  have hQ' : Q'.length = Q.length := by
    have := hperm1.length_eq
    simpa using this
  obtain ⟨LE, GT, hscan, hperm2, hLE, hGT⟩ := partition_scan_spec pre post pivot pivot Q' [] []
    (Q.length + 1) (by omega) (by simp) (by simp)
  have hlen2 : LE.length + GT.length = Q.length := by
    have := hperm2.length_eq
    simp at this
    omega
  simp only [List.append_nil, List.length_nil, Nat.cast_zero, add_zero] at hfind hscan
  rw [hQ'] at hscan
  have e1 : pre ++ (Q ++ [last]) ++ post = pre ++ Q ++ last :: post := by simp
  unfold partition
  rw [hfuel, hright, e1, hfind]
  simp only []
  rw [hscan]
  simp only []
  have hpermQ : ∀ T : List Int, (T ++ [pivot]).Perm (LE ++ GT ++ [pivot]) →
      (T ++ [pivot]).Perm (Q ++ [last]) := fun T h =>
    h.trans ((hperm2.append_right [pivot]).trans (by simpa using hperm1))
  cases GT with
  | nil =>
    refine ⟨LE, [], ?_, ?_, hLE, by simp⟩
    · have e2 : pre ++ LE ++ [] ++ pivot :: post = (pre ++ LE) ++ pivot :: post := by simp
      have e3 : (pre.length : Int) + Q.length = (pre.length : Int) + LE.length := by
        simp at hlen2; omega
      rw [e2, e3, swap_self _ _ _ _ (by simp)]
      simp
    · exact hpermQ LE (by simp)
  | cons g G1 =>
    have hG' : ∀ x ∈ G1 ++ [g], pivot < x := by
      intro y hy
      rcases List.mem_append.mp hy with hy | hy
      · exact hGT y (List.mem_cons_of_mem _ hy)
      · simp at hy; subst hy; exact hGT y (List.mem_cons_self _ _)
    refine ⟨LE, G1 ++ [g], ?_, ?_, hLE, hG'⟩
    · have e2 : pre ++ LE ++ (g :: G1) ++ pivot :: post
          = (pre ++ LE) ++ g :: (G1 ++ pivot :: post) := by simp
      rw [e2, swap_mid (pre ++ LE) G1 post g pivot _ _ (by simp) (by simp at hlen2 ⊢; omega)]
      simp
    · have h1 : (LE ++ pivot :: (G1 ++ [g])).Perm (LE ++ (G1 ++ [g]) ++ [pivot]) := by
        simpa using (@List.perm_middle _ pivot LE (G1 ++ [g])).trans
          (@List.perm_append_comm _ [pivot] (LE ++ (G1 ++ [g])))
      have h2 : (LE ++ (G1 ++ [g]) ++ [pivot]).Perm (LE ++ (g :: G1) ++ [pivot]) :=
        ((@List.perm_append_comm _ G1 [g]).append_left LE).append_right [pivot]
      exact (h1.trans h2).trans ((hperm2.append_right [pivot]).trans (by simpa using hperm1))

/-! ## Lemmas: linear_select -/

theorem sorted_split (A B : List Int) (v : Int) (hA : ∀ a ∈ A, a ≤ v) (hB : ∀ b ∈ B, v ≤ b) :
    sorted (A ++ v :: B) = sorted A ++ v :: sorted B := by
  symm
  apply sorted_unique
  · unfold List.Sorted
    rw [List.pairwise_append]
    refine ⟨sorted_sorted A, ?_, ?_⟩
    · rw [List.pairwise_cons]
      exact ⟨fun b hb => hB b ((sorted_perm B).subset hb), sorted_sorted B⟩
    · intro a ha b hb
      have h1 : a ≤ v := hA a ((sorted_perm A).subset ha)
      rcases List.mem_cons.mp hb with rfl | hb
      · exact h1
      · exact le_trans h1 (hB b ((sorted_perm B).subset hb))
  · exact (sorted_perm A).append ((sorted_perm B).cons v)

theorem NthAt.sorted_get {T : List Int} {i : Nat} {v : Int} (h : NthAt T i v) :
    (sorted T)[i]? = some v := by
  obtain ⟨A, B, rfl, hlen, hA, hB⟩ := h
  rw [sorted_split A B v hA hB, List.getElem?_append_right (by rw [sorted_length]; omega),
    sorted_length, hlen]
  simp

theorem NthAt.mem {T : List Int} {i : Nat} {v : Int} (h : NthAt T i v) : v ∈ T := by
  obtain ⟨A, B, rfl, _, _, _⟩ := h
  simp

theorem nthAt_of_sorted (T : List Int) (hs : T.Sorted (· ≤ ·)) (i : Nat) (hi : i < T.length) :
    NthAt T i T[i] := by
  refine ⟨T.take i, T.drop (i + 1), ?_, by rw [List.length_take]; omega, ?_, ?_⟩
  · rw [List.getElem_cons_drop, List.take_append_drop]
  · intro a ha
    obtain ⟨j, hj, rfl⟩ := List.getElem_of_mem ha
    rw [List.length_take] at hj
    rw [List.getElem_take]
    exact List.pairwise_iff_getElem.mp hs j i (by omega) hi (by omega)
  · intro b hb
    obtain ⟨j, hj, rfl⟩ := List.getElem_of_mem hb
    rw [List.length_drop] at hj
    rw [List.getElem_drop]
    exact List.pairwise_iff_getElem.mp hs i (i + 1 + j) hi (by omega) (by omega)

theorem select_step_small (pre seg post : List Int) (hseg : seg ≠ []) (left right k : Int)
    (hl : left = (pre.length : Int)) (hr : right = (pre.length : Int) + seg.length - 1)
    (hk1 : 1 ≤ k) (hk2 : k ≤ seg.length) (h5 : seg.length ≤ 5) :
    ∃ v, select_step (pre ++ seg ++ post) left right k
        = some (SelStep.done v (pre ++ sorted seg ++ post))
      ∧ (sorted seg)[(k - 1).toNat]? = some v := by
  have hpos : 0 < seg.length := List.length_pos.mpr hseg
  have hi : (k - 1).toNat < (sorted seg).length := by rw [sorted_length]; omega
  refine ⟨(sorted seg)[(k - 1).toNat], ?_, List.getElem?_eq_getElem hi⟩
  unfold select_step
  by_cases h1 : left = right
  · have hlen : seg.length = 1 := by subst hl hr; omega
    obtain ⟨x, rfl⟩ := List.length_eq_one.mp hlen
    have hk : (k - 1).toNat = 0 := by simp at hk2; omega
    have e1 : pre ++ [x] ++ post = pre ++ x :: post := by simp
    have e2 : sorted [x] = [x] := rfl
    rw [if_pos h1, e1, rd_mid _ _ _ _ hl]
    simp [hk, e2]
  · rw [if_neg h1, if_pos (by subst hl hr; omega),
      insertion_sort_frame pre seg post hseg left right hl hr]
    simp only []
    rw [rd_frame pre (sorted seg) post _ hi _ (by omega), List.getElem?_eq_getElem hi]

theorem select_step_large (pre seg post : List Int) (left right k : Int)
    (hl : left = (pre.length : Int)) (hr : right = (pre.length : Int) + seg.length - 1)
    (h5 : 5 < seg.length) :
    ∃ L R p, (L ++ p :: R).Perm seg ∧ (∀ x ∈ L, x ≤ p) ∧ (∀ x ∈ R, p < x) ∧
      select_step (pre ++ seg ++ post) left right k
        = if k = (L.length : Int) + 1 then
            some (SelStep.done p (pre ++ L ++ p :: R ++ post))
          else if k < (L.length : Int) + 1 then
            some (SelStep.call (pre ++ L ++ p :: R ++ post) left (left + L.length - 1) k)
          else
            some (SelStep.call (pre ++ L ++ p :: R ++ post) (left + L.length + 1) right
              (k - (L.length + 1))) := by
  have hseg : seg ≠ [] := by intro h; rw [h] at h5; simp at h5
  have hn : (right - left + 1).toNat = seg.length := by subst hl hr; omega
  obtain ⟨pivot, seg1, hmom, hperm1, hpiv⟩ :=
    median_of_medians_spec seg.length pre seg post left right hseg (le_refl _) hl hr
  have hpiv1 : pivot ∈ seg1 := hperm1.symm.subset hpiv
  obtain ⟨L, R, hpart, hperm2, hL, hR⟩ := partition_frame pre seg1 post pivot hpiv1 left right hl
    (by rw [hperm1.length_eq]; exact hr)
  refine ⟨L, R, pivot, hperm2.trans hperm1, hL, hR, ?_⟩
  have hrank : (pre.length : Int) + L.length - left + 1 = (L.length : Int) + 1 := by
    subst hl; omega
  have e1 : pre ++ L ++ pivot :: R ++ post = (pre ++ L) ++ pivot :: (R ++ post) := by simp
  have e2 : (pre.length : Int) + L.length - 1 = left + L.length - 1 := by subst hl; rfl
  have e3 : (pre.length : Int) + L.length + 1 = left + L.length + 1 := by subst hl; rfl
  unfold select_step
  rw [if_neg (by subst hl hr; omega), if_neg (by subst hl hr; omega), hn, hmom]
  simp only []
  rw [hpart]
  simp only [hrank]
  rw [e1, rd_mid _ _ _ _ (by simp), e2, e3]

theorem linear_select_spec (fuel : Nat) :
    ∀ (pre seg post : List Int) (left right k : Int), seg ≠ [] → seg.length ≤ fuel →
      left = (pre.length : Int) → right = (pre.length : Int) + seg.length - 1 →
      1 ≤ k → k ≤ seg.length →
      ∃ v seg', linear_select fuel (pre ++ seg ++ post) left right k
          = some (v, pre ++ seg' ++ post) ∧ seg'.Perm seg ∧ NthAt seg' (k - 1).toNat v := by
  induction fuel with
  | zero =>
    intro pre seg post left right k hseg hf
    have := List.length_pos.mpr hseg
    omega
  | succ fuel ih =>
    intro pre seg post left right k hseg hf hl hr hk1 hk2
    unfold linear_select
    by_cases h5 : seg.length ≤ 5
    · obtain ⟨v, hstep, hv⟩ := select_step_small pre seg post hseg left right k hl hr hk1 hk2 h5
      have hi : (k - 1).toNat < (sorted seg).length := by rw [sorted_length]; omega
      have hv' : v = (sorted seg)[(k - 1).toNat] := by
        rw [List.getElem?_eq_getElem hi] at hv
        exact (Option.some.inj hv).symm
      rw [hstep]
      refine ⟨v, sorted seg, rfl, sorted_perm seg, ?_⟩
      rw [hv']
      exact nthAt_of_sorted _ (sorted_sorted seg) _ hi
    · obtain ⟨L, R, p, hperm, hL, hR, hstep⟩ :=
        select_step_large pre seg post left right k hl hr (by omega)
      have hlenLR : L.length + 1 + R.length = seg.length := by
        have := hperm.length_eq
        simp at this
        omega
      rw [hstep]
      by_cases hk : k = (L.length : Int) + 1
      · rw [if_pos hk]
        refine ⟨p, L ++ p :: R, by simp, hperm, L, R, rfl, by omega, hL,
          fun b hb => le_of_lt (hR b hb)⟩
      rw [if_neg hk]
      by_cases hlt : k < (L.length : Int) + 1
      · rw [if_pos hlt]
        simp only []
        have hLne : L ≠ [] := by intro h; rw [h] at hlt; simp at hlt; omega
        have e1 : pre ++ L ++ p :: R ++ post = pre ++ L ++ (p :: R ++ post) := by simp
        obtain ⟨v, L', hrun, hpermL, A, B, hAB, hAlen, hA, hB⟩ :=
          ih pre L (p :: R ++ post) left (left + L.length - 1) k hLne (by omega) hl
            (by subst hl; rfl) hk1 (by omega)
        have hvL : v ∈ L := hpermL.subset (by rw [hAB]; simp)
        rw [e1, hrun]
        refine ⟨v, L' ++ p :: R, by simp, ?_, A, B ++ p :: R, by rw [hAB]; simp, hAlen, hA, ?_⟩
        · exact (hpermL.append_right (p :: R)).trans hperm
        · intro b hb
          rcases List.mem_append.mp hb with hb | hb
          · exact hB b hb
          · rcases List.mem_cons.mp hb with rfl | hb
            · exact hL v hvL
            · exact le_trans (hL v hvL) (le_of_lt (hR b hb))
      · rw [if_neg hlt]
        simp only []
        have hRne : R ≠ [] := by
          intro h; rw [h] at hlenLR; simp at hlenLR; omega
        have e1 : pre ++ L ++ p :: R ++ post = (pre ++ L ++ [p]) ++ R ++ post := by simp
        obtain ⟨v, R', hrun, hpermR, A, B, hAB, hAlen, hA, hB⟩ :=
          ih (pre ++ L ++ [p]) R post (left + L.length + 1) right (k - (L.length + 1)) hRne
            (by omega) (by subst hl; simp; omega) (by subst hl hr; simp; omega) (by omega) (by omega)
        have hvR : v ∈ R := hpermR.subset (by rw [hAB]; simp)
        rw [e1, hrun]
        refine ⟨v, L ++ p :: R', by simp, ?_, L ++ p :: A, B, by rw [hAB]; simp, ?_, ?_, hB⟩
        · exact ((hpermR.cons p).append_left L).trans hperm
        · simp; omega
        · intro a ha
          rcases List.mem_append.mp ha with ha | ha
          · exact le_trans (hL a ha) (le_of_lt (hR v hvR))
          · rcases List.mem_cons.mp ha with rfl | ha
            · exact le_of_lt (hR v hvR)
            · exact hA a ha

/-! ## From indices to frames -/

theorem frame_decomp (arr : List Int) (left right : Int) (h0 : 0 ≤ left) (h1 : left ≤ right)
    (h2 : right < arr.length) :
    ∃ pre seg post, arr = pre ++ seg ++ post ∧ left = (pre.length : Int)
      ∧ right = (pre.length : Int) + seg.length - 1 ∧ seg ≠ []
      ∧ segment arr left right = seg := by
  have hlen : (segment arr left right).length = (right - left + 1).toNat := by
    unfold segment
    rw [List.length_take, List.length_drop]
    omega
  refine ⟨arr.take left.toNat, segment arr left right,
    (arr.drop left.toNat).drop (right - left + 1).toNat, ?_, ?_, ?_, ?_, rfl⟩
  · unfold segment
    rw [List.append_assoc, List.take_append_drop, List.take_append_drop]
  · rw [List.length_take]; omega
  · rw [List.length_take, hlen]; omega
  · intro h
    rw [h] at hlen
    simp at hlen
    omega

theorem segment_frame (pre seg post : List Int) (left right : Int)
    (hl : left = (pre.length : Int)) (hr : right = (pre.length : Int) + seg.length - 1) :
    segment (pre ++ seg ++ post) left right = seg := by
  subst hl hr
  unfold segment
  have e1 : ((pre.length : Int)).toNat = pre.length := by omega
  have e2 : ((pre.length : Int) + seg.length - 1 - pre.length + 1).toNat = seg.length := by omega
  rw [e1, e2, List.append_assoc, List.drop_left, List.take_left]

/-! ## Properties of the routines -/

/-- C1. For a non-empty array `S` of length `n` and `1 ≤ k ≤ n`,
`linear_select(S, 0, n-1, k)` returns the element at index `k-1` of the
ascending sort of `S` (for any fuel of at least `n`); hence the answers for
`k = 1..n`, each computed on a fresh copy of `S`, are exactly `sorted S`. -/
theorem linear_select_correct (S : List Int) (hS : S ≠ []) :
    (∀ (k : Int) (fuel : Nat), 1 ≤ k → k ≤ S.length → S.length ≤ fuel →
      ∃ v arr', linear_select fuel S 0 ((S.length : Int) - 1) k = some (v, arr')
        ∧ (sorted S)[(k - 1).toNat]? = some v)
    ∧ (List.range S.length).map
        (fun (i : Nat) => (linear_select S.length S 0 ((S.length : Int) - 1) ((i : Int) + 1)).map Prod.fst)
      = (sorted S).map some := by
  have key : ∀ (k : Int) (fuel : Nat), 1 ≤ k → k ≤ S.length → S.length ≤ fuel →
      ∃ v arr', linear_select fuel S 0 ((S.length : Int) - 1) k = some (v, arr')
        ∧ (sorted S)[(k - 1).toNat]? = some v := by
    intro k fuel hk1 hk2 hf
    obtain ⟨v, seg', hrun, hperm, hnth⟩ :=
      linear_select_spec fuel [] S [] 0 ((S.length : Int) - 1) k hS hf (by simp) (by simp) hk1 hk2
    simp only [List.nil_append, List.append_nil] at hrun
    refine ⟨v, seg', hrun, ?_⟩
    rw [← sorted_congr seg' S hperm]
    exact hnth.sorted_get
  refine ⟨key, ?_⟩
  apply List.ext_getElem
  · simp [sorted_length]
  · intro i h1 h2
    simp only [List.length_map, List.length_range] at h1
    obtain ⟨v, arr', hrun, hv⟩ := key ((i : Int) + 1) S.length (by omega) (by omega) (le_refl _)
    have hi : ((i : Int) + 1 - 1).toNat = i := by omega
    rw [hi, List.getElem?_eq_getElem (by rw [sorted_length]; exact h1)] at hv
    simp only [List.getElem_map, List.getElem_range, hrun, Option.map_some']
    exact hv.symm

/-- Witness of C1 on the array of the first test: `k = 5` returns `3`. -/
theorem linear_select_correct_witness :
    ([3, 1, 4, 1, 5, 9, 2, 6, 5, 3] : List Int) ≠ []
    ∧ (linear_select 10 [3, 1, 4, 1, 5, 9, 2, 6, 5, 3] 0 9 5).map Prod.fst = some 3
    ∧ (∃ v arr', linear_select 10 [3, 1, 4, 1, 5, 9, 2, 6, 5, 3] 0 9 5 = some (v, arr')
        ∧ (sorted [3, 1, 4, 1, 5, 9, 2, 6, 5, 3])[4]? = some v)
    ∧ (List.range 10).map
        (fun (i : Nat) => (linear_select 10 [3, 1, 4, 1, 5, 9, 2, 6, 5, 3] 0 9 ((i : Int) + 1)).map Prod.fst)
      = (sorted [3, 1, 4, 1, 5, 9, 2, 6, 5, 3]).map some :=
  ⟨by decide, by decide,
    (linear_select_correct [3, 1, 4, 1, 5, 9, 2, 6, 5, 3] (by decide)).1 5 10 (by decide)
      (by decide) (by decide),
    (linear_select_correct [3, 1, 4, 1, 5, 9, 2, 6, 5, 3] (by decide)).2⟩

/-- C2. For a segment `[left, right]` of the array and `1 ≤ k ≤ right-left+1`,
the array after `linear_select(arr, left, right, k)` is a permutation of the
array before the call: no element is created or lost. -/
theorem linear_select_perm (arr : List Int) (left right k : Int) (fuel : Nat)
    (h0 : 0 ≤ left) (h1 : left ≤ right) (h2 : right < arr.length)
    (hk1 : 1 ≤ k) (hk2 : k ≤ right - left + 1) (hf : (right - left + 1).toNat ≤ fuel) :
    ∃ v arr', linear_select fuel arr left right k = some (v, arr') ∧ arr'.Perm arr := by
  obtain ⟨pre, seg, post, harr, hl, hr, hseg, _⟩ := frame_decomp arr left right h0 h1 h2
  obtain ⟨v, seg', hrun, hperm, _⟩ :=
    linear_select_spec fuel pre seg post left right k hseg (by omega) hl hr hk1 (by omega)
  refine ⟨v, pre ++ seg' ++ post, by rw [harr]; exact hrun, ?_⟩
  rw [harr]
  exact (hperm.append_left pre).append_right post

/-- Witness of C2: selecting the 3rd smallest of `arr[2..8]`. -/
theorem linear_select_perm_witness :
    ∃ v arr', linear_select 7 [3, 1, 4, 1, 5, 9, 2, 6, 5, 3] 2 8 3 = some (v, arr')
      ∧ arr'.Perm [3, 1, 4, 1, 5, 9, 2, 6, 5, 3] :=
  linear_select_perm [3, 1, 4, 1, 5, 9, 2, 6, 5, 3] 2 8 3 7 (by decide) (by decide) (by decide)
    (by decide) (by decide) (by decide)

/-- C3, as the code behaves. `linear_select` never checks `k`: on `[42]` it
returns `42` for `k = 5 > 1` and for `k = 0 < 1` instead of failing, and on six
elements with `k = 0` it returns `1` and leaves the sequence reordered. -/
theorem linear_select_rank_unchecked :
    (1 : Int) < 5 ∧ (0 : Int) < 1 ∧ ([42] : List Int).length = 1
    ∧ linear_select 1 [42] 0 0 5 = some (42, [42])
    ∧ linear_select 1 [42] 0 0 0 = some (42, [42])
    ∧ linear_select 6 [1, 3, 4, 5, 6, 2] 0 5 0 = some (1, [1, 2, 4, 5, 6, 3])
    ∧ ([1, 2, 4, 5, 6, 3] : List Int) ≠ [1, 3, 4, 5, 6, 2] := by decide

/-- On a one-element sequence `linear_select(arr, 0, 0, k)` returns the sole
element for every `k`, in range or not, and leaves the sequence as it was. -/
theorem linear_select_singleton_any_rank (x k : Int) (fuel : Nat) :
    linear_select (fuel + 1) [x] 0 0 k = some (x, [x]) := by
  simp [linear_select, select_step, rd]

/-- C4, at the failing input. On the 50 descending values of test 9,
`median_of_medians` returns 13: only 13 elements are `≤ 13`, fewer than
`⌈3·50/10⌉ = 15`. -/
theorem median_of_medians_weak_pivot :
    (median_of_medians 50 arr9 0 49).map Prod.fst = some 13
    ∧ (arr9.filter (fun x => decide (x ≤ 13))).length = 13
    ∧ 13 < (3 * 50 + 9) / 10 := by decide!

/-- C5, at the failing inputs. On the 100 equal values of test 10 with
`k = 50` the recursive call is on `[0, 98]`, 99 elements where `7·100/10 + 6`
is 76; on 35 distinct values with `k = 20` it is on `[3, 34]`, 32 elements
where `7·35/10 + 6` is 30. -/
theorem linear_select_recurses_on_large_side :
    select_step (List.replicate 100 42) 0 99 50
        = some (SelStep.call (List.replicate 100 42) 0 98 50)
    ∧ 7 * 100 / 10 + 6 < (98 : Int) - 0 + 1
    ∧ (select_step arr35 0 34 20).map
        (fun s => match s with
          | SelStep.call _ l r k1 => (l, r, k1)
          | SelStep.done _ _ => (0, 0, 0)) = some (3, 34, 17)
    ∧ 7 * 35 / 10 + 6 < (34 : Int) - 3 + 1 := by decide!

/-- What `partition` leaves behind, read through indices. -/
theorem partition_index_spec (arr : List Int) (left right pivot : Int)
    (h0 : 0 ≤ left) (h1 : left ≤ right) (h2 : right < arr.length)
    (hp : pivot ∈ segment arr left right) :
    ∃ pos arr', partition arr left right pivot = some (pos, arr')
      ∧ left ≤ pos ∧ pos ≤ right ∧ rd arr' pos = some pivot
      ∧ (∀ i, left ≤ i → i < pos → ∃ x, rd arr' i = some x ∧ x ≤ pivot)
      ∧ (∀ i, pos < i → i ≤ right → ∃ x, rd arr' i = some x ∧ pivot < x) := by
  obtain ⟨pre, seg, post, harr, hl, hr, hseg, hsegment⟩ := frame_decomp arr left right h0 h1 h2
  rw [hsegment] at hp
  obtain ⟨L, R, hpart, hperm, hL, hR⟩ := partition_frame pre seg post pivot hp left right hl hr
  have hlen : L.length + 1 + R.length = seg.length := by
    have := hperm.length_eq
    simp at this
    omega
  refine ⟨(pre.length : Int) + L.length, pre ++ L ++ pivot :: R ++ post, by rw [harr]; exact hpart,
    by omega, by omega, ?_, ?_, ?_⟩
  · have e1 : pre ++ L ++ pivot :: R ++ post = (pre ++ L) ++ pivot :: (R ++ post) := by simp
    rw [e1]
    exact rd_mid _ _ _ _ (by simp)
  · intro i hi1 hi2
    have hlt : (i - left).toNat < L.length := by omega
    have e1 : pre ++ L ++ pivot :: R ++ post = pre ++ L ++ (pivot :: R ++ post) := by simp
    refine ⟨L[(i - left).toNat], ?_, hL _ (List.getElem_mem _)⟩
    rw [e1, rd_frame pre L _ _ hlt i (by omega), List.getElem?_eq_getElem hlt]
  · intro i hi1 hi2
    have hlt : (i - left - L.length - 1).toNat < R.length := by omega
    have e1 : pre ++ L ++ pivot :: R ++ post = (pre ++ L ++ [pivot]) ++ R ++ post := by simp
    refine ⟨R[(i - left - L.length - 1).toNat], ?_, hR _ (List.getElem_mem _)⟩
    rw [e1, rd_frame (pre ++ L ++ [pivot]) R _ _ hlt i (by simp; omega),
      List.getElem?_eq_getElem hlt]

/-- C6. If `arr[left..right]` contains `pivot`, then after
`pos = partition(arr, left, right, pivot)` every element at `left..pos-1` is
`≤ arr[pos]` and every element at `pos+1..right` is `≥ arr[pos]`. -/
theorem partition_sides (arr : List Int) (left right pivot : Int)
    (h0 : 0 ≤ left) (h1 : left ≤ right) (h2 : right < arr.length)
    (hp : pivot ∈ segment arr left right) :
    ∃ pos arr' p, partition arr left right pivot = some (pos, arr') ∧ rd arr' pos = some p
      ∧ (∀ i, left ≤ i → i < pos → ∃ x, rd arr' i = some x ∧ x ≤ p)
      ∧ (∀ i, pos < i → i ≤ right → ∃ x, rd arr' i = some x ∧ p ≤ x) := by
  obtain ⟨pos, arr', hrun, _, _, hpos, hlo, hhi⟩ :=
    partition_index_spec arr left right pivot h0 h1 h2 hp
  refine ⟨pos, arr', pivot, hrun, hpos, hlo, ?_⟩
  intro i hi1 hi2
  obtain ⟨x, hx, hlt⟩ := hhi i hi1 hi2
  exact ⟨x, hx, le_of_lt hlt⟩

/-- Witness of C6: partitioning `arr[1..8]` around `5`. -/
theorem partition_sides_witness :
    ∃ pos arr' p, partition [3, 1, 4, 1, 5, 9, 2, 6, 5, 3] 1 8 5 = some (pos, arr')
      ∧ rd arr' pos = some p
      ∧ (∀ i, 1 ≤ i → i < pos → ∃ x, rd arr' i = some x ∧ x ≤ p)
      ∧ (∀ i, pos < i → i ≤ 8 → ∃ x, rd arr' i = some x ∧ p ≤ x) :=
  partition_sides [3, 1, 4, 1, 5, 9, 2, 6, 5, 3] 1 8 5 (by decide) (by decide) (by decide)
    (by decide)

/-- C7. If `arr[left..right]` contains `pivot` (at any index, `right`
included), the index `pos` returned by `partition(arr, left, right, pivot)`
lies in `[left, right]` and `arr[pos] == pivot` afterwards. -/
theorem partition_returns_pivot_index (arr : List Int) (left right pivot : Int)
    (h0 : 0 ≤ left) (h1 : left ≤ right) (h2 : right < arr.length)
    (hp : pivot ∈ segment arr left right) :
    ∃ pos arr', partition arr left right pivot = some (pos, arr')
      ∧ left ≤ pos ∧ pos ≤ right ∧ rd arr' pos = some pivot := by
  obtain ⟨pos, arr', hrun, hl, hr, hpos, _, _⟩ :=
    partition_index_spec arr left right pivot h0 h1 h2 hp
  exact ⟨pos, arr', hrun, hl, hr, hpos⟩

/-- Witness of C7: the only `9` of the segment sits at index `right`. -/
theorem partition_returns_pivot_index_witness :
    ∃ pos arr', partition [3, 1, 4, 1, 5, 9, 2, 6, 5, 3] 0 5 9 = some (pos, arr')
      ∧ 0 ≤ pos ∧ pos ≤ 5 ∧ rd arr' pos = some 9 :=
  partition_returns_pivot_index [3, 1, 4, 1, 5, 9, 2, 6, 5, 3] 0 5 9 (by decide) (by decide)
    (by decide) (by decide)

/-- C8. For `left ≤ right` the value returned by
`median_of_medians(arr, left, right)` is an element of `arr[left..right]`,
both as it was before the call and as the call leaves it, so the `partition`
that follows in `linear_select` finds it. -/
theorem median_of_medians_mem (arr : List Int) (left right : Int) (fuel : Nat)
    (h0 : 0 ≤ left) (h1 : left ≤ right) (h2 : right < arr.length)
    (hf : (right - left + 1).toNat ≤ fuel) :
    ∃ v arr', median_of_medians fuel arr left right = some (v, arr')
      ∧ v ∈ segment arr left right ∧ v ∈ segment arr' left right
      ∧ ∃ pos arr2, partition arr' left right v = some (pos, arr2)
          ∧ rd arr2 pos = some v := by
  obtain ⟨pre, seg, post, harr, hl, hr, hseg, hsegment⟩ := frame_decomp arr left right h0 h1 h2
  obtain ⟨v, seg', hrun, hperm, hv⟩ :=
    median_of_medians_spec fuel pre seg post left right hseg (by omega) hl hr
  have hr' : right = (pre.length : Int) + seg'.length - 1 := by rw [hperm.length_eq]; exact hr
  have hv' : v ∈ segment (pre ++ seg' ++ post) left right := by
    rw [segment_frame pre seg' post left right hl hr']
    exact hperm.symm.subset hv
  have hlen : ((pre ++ seg' ++ post).length : Int) = arr.length := by
    rw [harr]; simp [hperm.length_eq]
  obtain ⟨pos, arr2, hpart, _, _, hpos, _, _⟩ :=
    partition_index_spec (pre ++ seg' ++ post) left right v h0 h1 (by omega) hv'
  exact ⟨v, pre ++ seg' ++ post, by rw [harr]; exact hrun, by rw [hsegment]; exact hv, hv',
    pos, arr2, hpart, hpos⟩

/-- Witness of C8 on the array of the first test. -/
theorem median_of_medians_mem_witness :
    ∃ v arr', median_of_medians 10 [3, 1, 4, 1, 5, 9, 2, 6, 5, 3] 0 9 = some (v, arr')
      ∧ v ∈ segment [3, 1, 4, 1, 5, 9, 2, 6, 5, 3] 0 9 ∧ v ∈ segment arr' 0 9
      ∧ ∃ pos arr2, partition arr' 0 9 v = some (pos, arr2) ∧ rd arr2 pos = some v :=
  median_of_medians_mem [3, 1, 4, 1, 5, 9, 2, 6, 5, 3] 0 9 10 (by decide) (by decide) (by decide)
    (by decide)

/-- C9. For `left ≤ right` and `1 ≤ k ≤ right-left+1`, `linear_select`
returns once its fuel reaches the segment length, and so does the pivot search;
the recursive call of `linear_select` is on a valid, strictly shorter
sub-segment with a valid rank, and the recursive call of `median_of_medians`
is on a medians buffer strictly shorter than the segment. -/
theorem linear_select_terminates (arr : List Int) (left right k : Int)
    (h0 : 0 ≤ left) (h1 : left ≤ right) (h2 : right < arr.length)
    (hk1 : 1 ≤ k) (hk2 : k ≤ right - left + 1) :
    (∀ fuel, (right - left + 1).toNat ≤ fuel →
        (linear_select fuel arr left right k).isSome = true)
    ∧ (∀ a l r k1, select_step arr left right k = some (SelStep.call a l r k1) →
        0 ≤ l ∧ l ≤ r ∧ r < a.length ∧ 1 ≤ k1 ∧ k1 ≤ r - l + 1
          ∧ r - l + 1 < right - left + 1)
    ∧ (∀ fuel, (right - left + 1).toNat ≤ fuel →
        (median_of_medians fuel arr left right).isSome = true)
    ∧ (∀ med r a, mom_step arr left right = some (MomStep.call med r a) →
        0 ≤ r ∧ r < med.length ∧ r - 0 + 1 < right - left + 1) := by
  obtain ⟨pre, seg, post, harr, hl, hr, hseg, _⟩ := frame_decomp arr left right h0 h1 h2
  have hpos : 0 < seg.length := List.length_pos.mpr hseg
  refine ⟨?_, ?_, ?_, ?_⟩
  · intro fuel hf
    obtain ⟨v, seg', hrun, _, _⟩ :=
      linear_select_spec fuel pre seg post left right k hseg (by omega) hl hr hk1 (by omega)
    rw [harr, hrun]
    rfl
  · intro a l r k1 hcall
    rw [harr] at hcall
    by_cases h5 : seg.length ≤ 5
    · obtain ⟨v, hstep, _⟩ :=
        select_step_small pre seg post hseg left right k hl hr hk1 (by omega) h5
      rw [hstep] at hcall
      simp at hcall
    · obtain ⟨L, R, p, hperm, _, _, hstep⟩ :=
        select_step_large pre seg post left right k hl hr (by omega)
      have hlen : L.length + 1 + R.length = seg.length := by
        have := hperm.length_eq
        simp at this
        omega
      have hal : ((pre ++ L ++ p :: R ++ post).length : Int)
          = (pre.length : Int) + L.length + 1 + R.length + post.length := by
        simp; omega
      rw [hstep] at hcall
      split_ifs at hcall with hk hlt
      · simp at hcall
      · simp only [Option.some.injEq, SelStep.call.injEq] at hcall
        obtain ⟨rfl, rfl, rfl, rfl⟩ := hcall
        rw [hal]
        omega
      · simp only [Option.some.injEq, SelStep.call.injEq] at hcall
        obtain ⟨rfl, rfl, rfl, rfl⟩ := hcall
        rw [hal]
        omega
  · intro fuel hf
    obtain ⟨v, seg', hrun, _, _⟩ :=
      median_of_medians_spec fuel pre seg post left right hseg (by omega) hl hr
    rw [harr, hrun]
    rfl
  · intro med r a hcall
    rw [harr] at hcall
    obtain ⟨seg', _, h⟩ := mom_step_spec pre seg post hseg left right hl hr
    rcases h with ⟨v, hstep, _, _⟩ | ⟨med', hstep, hm2, hm3, hm4, _⟩
    · rw [hstep] at hcall
      simp at hcall
    · rw [hstep] at hcall
      simp only [Option.some.injEq, MomStep.call.injEq] at hcall
      obtain ⟨rfl, rfl, rfl⟩ := hcall
      omega

/-- Witness of C9 on the array of the first test with `k = 7`, where
`linear_select` recurses into `arr[5..9]`. -/
theorem linear_select_terminates_witness :
    (∀ fuel, ((9 : Int) - 0 + 1).toNat ≤ fuel →
        (linear_select fuel [3, 1, 4, 1, 5, 9, 2, 6, 5, 3] 0 9 7).isSome = true)
    ∧ (∀ a l r k1, select_step [3, 1, 4, 1, 5, 9, 2, 6, 5, 3] 0 9 7
          = some (SelStep.call a l r k1) →
        0 ≤ l ∧ l ≤ r ∧ r < a.length ∧ 1 ≤ k1 ∧ k1 ≤ r - l + 1 ∧ r - l + 1 < 9 - 0 + 1)
    ∧ (∀ fuel, ((9 : Int) - 0 + 1).toNat ≤ fuel →
        (median_of_medians fuel [3, 1, 4, 1, 5, 9, 2, 6, 5, 3] 0 9).isSome = true)
    ∧ (∀ med r a, mom_step [3, 1, 4, 1, 5, 9, 2, 6, 5, 3] 0 9 = some (MomStep.call med r a) →
        0 ≤ r ∧ r < med.length ∧ r - 0 + 1 < 9 - 0 + 1) :=
  linear_select_terminates [3, 1, 4, 1, 5, 9, 2, 6, 5, 3] 0 9 7 (by decide) (by decide)
    (by decide) (by decide) (by decide)

/-- C10. For `left ≤ right`, `find_median(arr, left, right)` returns the
lower median of the segment, the element at index `(right-left)/2` of its
ascending sort, and leaves the segment sorted. -/
theorem find_median_lower_median (arr : List Int) (left right : Int)
    (h0 : 0 ≤ left) (h1 : left ≤ right) (h2 : right < arr.length) :
    ∃ v arr', find_median arr left right = some (v, arr')
      ∧ (sorted (segment arr left right))[((right - left) / 2).toNat]? = some v
      ∧ segment arr' left right = sorted (segment arr left right) := by
  obtain ⟨pre, seg, post, harr, hl, hr, hseg, hsegment⟩ := frame_decomp arr left right h0 h1 h2
  obtain ⟨v, hrun, hv⟩ := find_median_frame pre seg post hseg left right hl hr
  have hidx : ((right - left) / 2).toNat = (seg.length - 1) / 2 := by
    have hpos : 0 < seg.length := List.length_pos.mpr hseg
    subst hl hr
    omega
  refine ⟨v, pre ++ sorted seg ++ post, by rw [harr]; exact hrun, ?_, ?_⟩
  · rw [hsegment, hidx]
    exact hv
  · rw [hsegment]
    exact segment_frame pre (sorted seg) post left right hl (by rw [sorted_length]; exact hr)

/-- Witness of C10: the lower median of the four elements `arr[0..3]`. -/
theorem find_median_lower_median_witness :
    ∃ v arr', find_median [3, 1, 4, 1, 5, 9, 2, 6, 5, 3] 0 3 = some (v, arr')
      ∧ (sorted (segment [3, 1, 4, 1, 5, 9, 2, 6, 5, 3] 0 3))[(((3 : Int) - 0) / 2).toNat]? = some v
      ∧ segment arr' 0 3 = sorted (segment [3, 1, 4, 1, 5, 9, 2, 6, 5, 3] 0 3) :=
  find_median_lower_median [3, 1, 4, 1, 5, 9, 2, 6, 5, 3] 0 3 (by decide) (by decide) (by decide)


/-! ## Further lemmas -/

theorem rd_outside (pre seg seg' post : List Int) (hlen : seg'.length = seg.length) (i : Int)
    (hi : i < (pre.length : Int) ∨ (pre.length : Int) + seg.length - 1 < i) :
    rd (pre ++ seg' ++ post) i = rd (pre ++ seg ++ post) i := by
  unfold rd
  by_cases h0 : 0 ≤ i
  · rw [if_pos h0, if_pos h0]
    rcases hi with hi | hi
    · have hlt : i.toNat < pre.length := by omega
      rw [List.append_assoc, List.append_assoc, List.getElem?_append_left hlt,
        List.getElem?_append_left hlt]
    · have h1 : (pre ++ seg').length ≤ i.toNat := by simp; omega
      have h2 : (pre ++ seg).length ≤ i.toNat := by simp; omega
      rw [List.getElem?_append_right h1, List.getElem?_append_right h2]
      simp [hlen]
  · rw [if_neg h0, if_neg h0]

theorem rd_left_part (pre A B post : List Int) (v : Int) (i : Int)
    (h1 : (pre.length : Int) ≤ i) (h2 : i < (pre.length : Int) + A.length) :
    ∃ x, rd (pre ++ (A ++ v :: B) ++ post) i = some x ∧ x ∈ A := by
  have hlt : (i - pre.length).toNat < A.length := by omega
  have e1 : pre ++ (A ++ v :: B) ++ post = pre ++ A ++ (v :: B ++ post) := by simp
  refine ⟨A[(i - pre.length).toNat], ?_, List.getElem_mem _⟩
  rw [e1, rd_frame pre A _ _ hlt i (by omega), List.getElem?_eq_getElem hlt]

theorem rd_mid_part (pre A B post : List Int) (v : Int) (i : Int)
    (h1 : i = (pre.length : Int) + A.length) :
    rd (pre ++ (A ++ v :: B) ++ post) i = some v := by
  have e1 : pre ++ (A ++ v :: B) ++ post = (pre ++ A) ++ v :: (B ++ post) := by simp
  rw [e1]
  exact rd_mid _ _ _ _ (by simp [h1])

theorem rd_right_part (pre A B post : List Int) (v : Int) (i : Int)
    (h1 : (pre.length : Int) + A.length < i) (h2 : i ≤ (pre.length : Int) + A.length + B.length) :
    ∃ x, rd (pre ++ (A ++ v :: B) ++ post) i = some x ∧ x ∈ B := by
  have hlt : (i - pre.length - A.length - 1).toNat < B.length := by omega
  have e1 : pre ++ (A ++ v :: B) ++ post = (pre ++ A ++ [v]) ++ B ++ post := by simp
  refine ⟨B[(i - pre.length - A.length - 1).toNat], ?_, List.getElem_mem _⟩
  rw [e1, rd_frame (pre ++ A ++ [v]) B _ _ hlt i (by simp; omega), List.getElem?_eq_getElem hlt]

theorem frame_take_drop (pre seg post : List Int) (left right : Int)
    (hl : left = (pre.length : Int)) (hr : right = (pre.length : Int) + seg.length - 1) :
    (pre ++ seg ++ post).take left.toNat = pre
      ∧ (pre ++ seg ++ post).drop (right + 1).toNat = post := by
  subst hl hr
  have e1 : ((pre.length : Int)).toNat = pre.length := by omega
  have e2 : ((pre.length : Int) + seg.length - 1 + 1).toNat = (pre ++ seg).length := by
    simp; omega
  constructor
  · rw [e1, List.append_assoc, List.take_left]
  · rw [e2, List.drop_left]

theorem insertion_sort_empty (arr : List Int) (left right : Int) (h : right < left) :
    insertion_sort arr left right = some arr := by
  have e : (right - left).toNat = 0 := by omega
  unfold insertion_sort
  rw [e]
  unfold insertion_sort_loop
  rw [if_neg (by omega)]

theorem partition_find_absent (pre post : List Int) (pivot last : Int) (Q : List Int) :
    ∀ (P : List Int) (fuel : Nat), Q.length < fuel → pivot ∉ Q →
      partition_find ((pre.length : Int) + P.length + Q.length) pivot fuel
          (pre ++ P ++ Q ++ last :: post) ((pre.length : Int) + P.length)
        = some (pre ++ P ++ Q ++ last :: post) := by
  induction Q with
  | nil =>
    intro P fuel hf _
    obtain ⟨f, rfl⟩ : ∃ f, fuel = f + 1 := ⟨fuel - 1, by omega⟩
    unfold partition_find
    rw [if_neg (by simp)]
  | cons x Q ih =>
    intro P fuel hf hp
    obtain ⟨f, rfl⟩ : ∃ f, fuel = f + 1 := ⟨fuel - 1, by omega⟩
    have hlen : (x :: Q).length = Q.length + 1 := by simp
    have hx : ¬ x = pivot := by
      intro h; exact hp (by rw [h]; exact List.mem_cons_self _ _)
    have hp' : pivot ∉ Q := fun h => hp (List.mem_cons_of_mem _ h)
    have e1 : pre ++ P ++ (x :: Q) ++ last :: post = (pre ++ P) ++ x :: (Q ++ last :: post) := by
      simp
    have e2 : (pre ++ P) ++ x :: (Q ++ last :: post) = pre ++ (P ++ [x]) ++ Q ++ last :: post := by
      simp
    have e3 : (pre.length : Int) + P.length + ((x :: Q).length : Nat)
        = (pre.length : Int) + ((P ++ [x]).length : Nat) + Q.length := by
      simp; omega
    have e4 : (pre.length : Int) + P.length + 1 = (pre.length : Int) + ((P ++ [x]).length : Nat) := by
      simp; omega
    unfold partition_find
    rw [if_pos (by rw [hlen]; push_cast; omega), e1, rd_mid _ _ _ _ (by simp)]
    simp only []
    rw [if_neg hx, e2, e3, e4]
    exact ih (P ++ [x]) f (by rw [hlen] at hf; omega) hp'

theorem partition_frame_absent (pre Q post : List Int) (pivot last : Int)
    (hmem : pivot ∉ Q) (left right : Int) (hl : left = (pre.length : Int))
    (hr : right = (pre.length : Int) + Q.length) :
    ∃ L R, partition (pre ++ (Q ++ [last]) ++ post) left right pivot
        = some ((pre.length : Int) + L.length, pre ++ (L ++ last :: R) ++ post)
      ∧ (L ++ R).Perm Q ∧ (∀ x ∈ L, x ≤ pivot) ∧ (∀ x ∈ R, pivot < x) := by
  subst hl hr
  have hfuel : ((pre.length : Int) + Q.length - (pre.length : Int)).toNat + 1 = Q.length + 1 := by
    omega
  have hfind := partition_find_absent pre post pivot last Q [] (Q.length + 1) (by omega) hmem
  obtain ⟨LE, GT, hscan, hperm2, hLE, hGT⟩ := partition_scan_spec pre post pivot last Q [] []
    (Q.length + 1) (by omega) (by simp) (by simp)
  have hlen2 : LE.length + GT.length = Q.length := by
    have := hperm2.length_eq
    simp at this
    omega
  simp only [List.append_nil, List.length_nil, Nat.cast_zero, add_zero] at hfind hscan
  have e1 : pre ++ (Q ++ [last]) ++ post = pre ++ Q ++ last :: post := by simp
  have hpermQ : (LE ++ GT).Perm Q := by simpa using hperm2
  unfold partition
  rw [hfuel, e1, hfind]
  simp only []
  rw [hscan]
  simp only []
  cases GT with
  | nil =>
    refine ⟨LE, [], ?_, hpermQ, hLE, by simp⟩
    have e2 : pre ++ LE ++ [] ++ last :: post = (pre ++ LE) ++ last :: post := by simp
    have e3 : (pre.length : Int) + Q.length = (pre.length : Int) + LE.length := by
      simp at hlen2; omega
    rw [e2, e3, swap_self _ _ _ _ (by simp)]
    simp
  | cons g G1 =>
    have hG' : ∀ x ∈ G1 ++ [g], pivot < x := by
      intro y hy
      rcases List.mem_append.mp hy with hy | hy
      · exact hGT y (List.mem_cons_of_mem _ hy)
      · simp at hy; subst hy; exact hGT y (List.mem_cons_self _ _)
    refine ⟨LE, G1 ++ [g], ?_, ?_, hLE, hG'⟩
    · have e2 : pre ++ LE ++ (g :: G1) ++ last :: post
          = (pre ++ LE) ++ g :: (G1 ++ last :: post) := by simp
      rw [e2, swap_mid (pre ++ LE) G1 post g last _ _ (by simp) (by simp at hlen2 ⊢; omega)]
      simp
    · exact ((@List.perm_append_comm _ G1 [g]).append_left LE).trans hpermQ

/-! ## Properties of the routines, continued -/

/-- C11. For `left ≤ right` within bounds, the array after
`insertion_sort(arr, left, right)` is the original array with `arr[left..right]`
replaced by its ascending sort: the segment is sorted, a permutation of the
original segment, every index outside it is untouched, and for `left == right`
the array is unchanged. -/
theorem insertion_sort_sorts (arr : List Int) (left right : Int)
    (h0 : 0 ≤ left) (h1 : left ≤ right) (h2 : right < arr.length) :
    ∃ arr', insertion_sort arr left right = some arr'
      ∧ arr' = arr.take left.toNat ++ sorted (segment arr left right)
          ++ arr.drop (right + 1).toNat
      ∧ (segment arr' left right).Sorted (· ≤ ·)
      ∧ (segment arr' left right).Perm (segment arr left right)
      ∧ (∀ i, i < left ∨ right < i → rd arr' i = rd arr i)
      ∧ (left = right → arr' = arr) := by
  obtain ⟨pre, seg, post, harr, hl, hr, hseg, hsegment⟩ := frame_decomp arr left right h0 h1 h2
  obtain ⟨htake, hdrop⟩ := frame_take_drop pre seg post left right hl hr
  have hseg' : segment (pre ++ sorted seg ++ post) left right = sorted seg :=
    segment_frame pre (sorted seg) post left right hl (by rw [sorted_length]; exact hr)
  refine ⟨pre ++ sorted seg ++ post, ?_, ?_, ?_, ?_, ?_, ?_⟩
  · rw [harr]
    exact insertion_sort_frame pre seg post hseg left right hl hr
  · rw [hsegment, harr, htake, hdrop]
  · rw [hseg']
    exact sorted_sorted seg
  · rw [hseg', hsegment]
    exact sorted_perm seg
  · intro i hi
    rw [harr]
    exact rd_outside pre seg (sorted seg) post (sorted_length seg) i (by subst hl hr; omega)
  · intro hlr
    have hlen : seg.length = 1 := by
      have := List.length_pos.mpr hseg
      subst hl hr
      omega
    obtain ⟨x, rfl⟩ := List.length_eq_one.mp hlen
    rw [harr]
    rfl

/-- Witness of C11: sorting `arr[2..5]` of the array of the first test. -/
theorem insertion_sort_sorts_witness :
    ∃ arr', insertion_sort [3, 1, 4, 1, 5, 9, 2, 6, 5, 3] 2 5 = some arr'
      ∧ arr' = ([3, 1, 4, 1, 5, 9, 2, 6, 5, 3] : List Int).take (2 : Int).toNat
          ++ sorted (segment [3, 1, 4, 1, 5, 9, 2, 6, 5, 3] 2 5)
          ++ ([3, 1, 4, 1, 5, 9, 2, 6, 5, 3] : List Int).drop ((5 : Int) + 1).toNat
      ∧ (segment arr' 2 5).Sorted (· ≤ ·)
      ∧ (segment arr' 2 5).Perm (segment [3, 1, 4, 1, 5, 9, 2, 6, 5, 3] 2 5)
      ∧ (∀ i, i < 2 ∨ 5 < i → rd arr' i = rd [3, 1, 4, 1, 5, 9, 2, 6, 5, 3] i)
      ∧ ((2 : Int) = 5 → arr' = [3, 1, 4, 1, 5, 9, 2, 6, 5, 3]) :=
  insertion_sort_sorts [3, 1, 4, 1, 5, 9, 2, 6, 5, 3] 2 5 (by decide) (by decide) (by decide)

/-- C12. For a non-empty array `S` of length `n`, `linear_select(S, 0, n-1, 1)`
returns the minimum of `S` and `linear_select(S, 0, n-1, n)` returns the
maximum of `S`. -/
theorem linear_select_min_max (S : List Int) (fuel : Nat) (hS : S ≠ [])
    (hf : S.length ≤ fuel) :
    (∃ v arr', linear_select fuel S 0 ((S.length : Int) - 1) 1 = some (v, arr')
        ∧ v ∈ S ∧ ∀ x ∈ S, v ≤ x)
    ∧ (∃ v arr', linear_select fuel S 0 ((S.length : Int) - 1) S.length = some (v, arr')
        ∧ v ∈ S ∧ ∀ x ∈ S, x ≤ v) := by
  have hpos : 0 < S.length := List.length_pos.mpr hS
  constructor
  · obtain ⟨v, seg', hrun, hperm, A, B, hAB, hlen, _, hB⟩ :=
      linear_select_spec fuel [] S [] 0 ((S.length : Int) - 1) 1 hS hf (by simp) (by simp)
        (by omega) (by omega)
    simp only [List.nil_append, List.append_nil] at hrun
    have hA : A = [] := List.length_eq_zero.mp (by simpa using hlen)
    subst hA
    refine ⟨v, seg', hrun, hperm.subset (by rw [hAB]; simp), ?_⟩
    intro x hx
    have hx' : x ∈ seg' := hperm.symm.subset hx
    rw [hAB] at hx'
    rcases List.mem_cons.mp (by simpa using hx') with rfl | hb
    · exact le_refl _
    · exact hB x hb
  · obtain ⟨v, seg', hrun, hperm, A, B, hAB, hlen, hA, _⟩ :=
      linear_select_spec fuel [] S [] 0 ((S.length : Int) - 1) S.length hS hf (by simp) (by simp)
        (by omega) (by omega)
    simp only [List.nil_append, List.append_nil] at hrun
    have hB : B = [] := by
      have h1 := hperm.length_eq
      rw [hAB] at h1
      simp at h1
      apply List.length_eq_zero.mp
      omega
    subst hB
    refine ⟨v, seg', hrun, hperm.subset (by rw [hAB]; simp), ?_⟩
    intro x hx
    have hx' : x ∈ seg' := hperm.symm.subset hx
    rw [hAB] at hx'
    rcases List.mem_append.mp hx' with ha | hb
    · exact hA x ha
    · simp at hb
      rw [hb]

/-- Witness of C12 on the array of tests 7 and 8: `1` for `k = 1`, `9` for `k = 9`. -/
theorem linear_select_min_max_witness :
    ((linear_select 9 [9, 3, 7, 1, 5, 8, 2, 6, 4] 0 8 1).map Prod.fst = some 1
      ∧ (linear_select 9 [9, 3, 7, 1, 5, 8, 2, 6, 4] 0 8 9).map Prod.fst = some 9)
    ∧ (∃ v arr', linear_select 9 [9, 3, 7, 1, 5, 8, 2, 6, 4] 0 8 1 = some (v, arr')
        ∧ v ∈ ([9, 3, 7, 1, 5, 8, 2, 6, 4] : List Int)
        ∧ ∀ x ∈ ([9, 3, 7, 1, 5, 8, 2, 6, 4] : List Int), v ≤ x)
    ∧ (∃ v arr', linear_select 9 [9, 3, 7, 1, 5, 8, 2, 6, 4] 0 8 9 = some (v, arr')
        ∧ v ∈ ([9, 3, 7, 1, 5, 8, 2, 6, 4] : List Int)
        ∧ ∀ x ∈ ([9, 3, 7, 1, 5, 8, 2, 6, 4] : List Int), x ≤ v) :=
  ⟨by decide,
    linear_select_min_max [9, 3, 7, 1, 5, 8, 2, 6, 4] 9 (by decide) (by decide)⟩

/-- C13. For an in-bounds index `left` and any integer `k`, equal to 1 or not,
`linear_select(arr, left, left, k)` returns `arr[left]` and leaves the array
unchanged: `k` is not looked at on a one-element segment. -/
theorem linear_select_single_element (arr : List Int) (left k : Int) (fuel : Nat)
    (h0 : 0 ≤ left) (h2 : left < arr.length) :
    ∃ v, rd arr left = some v ∧ linear_select (fuel + 1) arr left left k = some (v, arr) := by
  have hlt : left.toNat < arr.length := by omega
  refine ⟨arr[left.toNat], ?_, ?_⟩
  · unfold rd
    rw [if_pos h0, List.getElem?_eq_getElem hlt]
  · unfold linear_select select_step
    rw [if_pos rfl]
    unfold rd
    rw [if_pos h0, List.getElem?_eq_getElem hlt]

/-- Witness of C13: `[42]` with `k = 1` returns `42`. -/
theorem linear_select_single_element_witness :
    ∃ v, rd [42] 0 = some v ∧ linear_select (0 + 1) [42] 0 0 1 = some (v, [42]) :=
  linear_select_single_element [42] 0 1 0 (by decide) (by decide)

/-- With `left > right` the call reads `arr[left + k - 1]` and returns it. -/
theorem linear_select_inverted_spec (arr : List Int) (left right k : Int) (fuel : Nat)
    (h : right < left) :
    linear_select (fuel + 1) arr left right k
      = (rd arr (left + k - 1)).map (fun v => (v, arr)) := by
  unfold linear_select select_step
  rw [if_neg (by omega), if_pos (by omega), insertion_sort_empty arr left right h]
  simp only []
  cases rd arr (left + k - 1) with
  | none => rfl
  | some v => rfl

/-- C14, as the code behaves. With `left = 2 > right = 1` in `[7, 8, 9]` and
`k = 1`, `linear_select` returns `arr[2] = 9` instead of failing. -/
theorem linear_select_inverted_range_returns :
    (1 : Int) < 2 ∧ linear_select 1 [7, 8, 9] 2 1 1 = some (9, [7, 8, 9]) := by decide

/-- C14, amended. With `left > right` (and every `int` computation of the call
in range), `linear_select` checks nothing: it takes the short-segment branch,
`insertion_sort` does nothing, and `arr[left + k - 1]` is read. The value there
is returned with the array unchanged; if that index is outside the array (as
for an empty sequence) the read is undefined. -/
theorem linear_select_inverted_range (arr : List Int) (left right k : Int) (fuel : Nat)
    (h : right < left) (_hl : InInt left) (_hl1 : InInt (left + 1)) (_hr : InInt right)
    (_hk : InInt k) (_hd : InInt (right - left)) (_hi : InInt (left + k))
    (_hi1 : InInt (left + k - 1)) :
    linear_select (fuel + 1) arr left right k
      = (rd arr (left + k - 1)).map (fun v => (v, arr)) :=
  linear_select_inverted_spec arr left right k fuel h

/-- Witness of C14 amended: `[7, 8, 9]`, `left = 2`, `right = 1`, `k = 1`;
and the empty sequence, `left = 0`, `right = -1`. -/
theorem linear_select_inverted_range_witness :
    linear_select (0 + 1) [7, 8, 9] 2 1 1 = (rd [7, 8, 9] (2 + 1 - 1)).map (fun v => (v, [7, 8, 9]))
    ∧ linear_select (0 + 1) [] 0 (-1) 1 = (rd [] (0 + 1 - 1)).map (fun v => (v, [])) :=
  ⟨linear_select_inverted_range [7, 8, 9] 2 1 1 0 (by decide) (by decide) (by decide)
      (by decide) (by decide) (by decide) (by decide) (by decide),
    linear_select_inverted_range [] 0 (-1) 1 0 (by decide) (by decide) (by decide)
      (by decide) (by decide) (by decide) (by decide) (by decide)⟩

/-- C15. If `arr[left..right]` contains `pivot`, then after
`pos = partition(arr, left, right, pivot)` every element at `left..pos` is
`≤ pivot` and every element at `pos+1..right` is `> pivot`, so `pos - left + 1`
is the number of elements of the segment that are `≤ pivot`. -/
theorem partition_rank_counts (arr : List Int) (left right pivot : Int)
    (h0 : 0 ≤ left) (h1 : left ≤ right) (h2 : right < arr.length)
    (hp : pivot ∈ segment arr left right) :
    ∃ pos arr', partition arr left right pivot = some (pos, arr')
      ∧ (∀ i, left ≤ i → i ≤ pos → ∃ x, rd arr' i = some x ∧ x ≤ pivot)
      ∧ (∀ i, pos < i → i ≤ right → ∃ x, rd arr' i = some x ∧ pivot < x)
      ∧ pos - left + 1
          = (((segment arr left right).filter (fun x => decide (x ≤ pivot))).length : Int) := by
  obtain ⟨pre, seg, post, harr, hl, hr, hseg, hsegment⟩ := frame_decomp arr left right h0 h1 h2
  rw [hsegment] at hp ⊢
  obtain ⟨L, R, hpart, hperm, hL, hR⟩ := partition_frame pre seg post pivot hp left right hl hr
  have hlen : L.length + 1 + R.length = seg.length := by
    have := hperm.length_eq
    simp at this
    omega
  have e0 : pre ++ L ++ pivot :: R ++ post = pre ++ (L ++ pivot :: R) ++ post := by simp
  refine ⟨(pre.length : Int) + L.length, pre ++ L ++ pivot :: R ++ post, by rw [harr]; exact hpart,
    ?_, ?_, ?_⟩
  · intro i hi1 hi2
    rw [e0]
    by_cases hi : i = (pre.length : Int) + L.length
    · exact ⟨pivot, rd_mid_part pre L R post pivot i hi, le_refl _⟩
    · obtain ⟨x, hx, hxL⟩ := rd_left_part pre L R post pivot i (by omega) (by omega)
      exact ⟨x, hx, hL x hxL⟩
  · intro i hi1 hi2
    rw [e0]
    obtain ⟨x, hx, hxR⟩ := rd_right_part pre L R post pivot i hi1 (by omega)
    exact ⟨x, hx, hR x hxR⟩
  · have hcount : (seg.filter (fun x => decide (x ≤ pivot))).length
        = ((L ++ pivot :: R).filter (fun x => decide (x ≤ pivot))).length :=
      (hperm.filter _).length_eq.symm
    have hLf : L.filter (fun x => decide (x ≤ pivot)) = L :=
      List.filter_eq_self.mpr (fun x hx => by simpa using hL x hx)
    have hRf : R.filter (fun x => decide (x ≤ pivot)) = [] :=
      List.filter_eq_nil_iff.mpr (fun x hx => by simpa using hR x hx)
    rw [hcount, List.filter_append, List.filter_cons, hLf, hRf]
    simp
    omega

/-- Witness of C15: partitioning the array of the first test around `3`, which
occurs twice. -/
theorem partition_rank_counts_witness :
    ∃ pos arr', partition [3, 1, 4, 1, 5, 9, 2, 6, 5, 3] 0 9 3 = some (pos, arr')
      ∧ (∀ i, 0 ≤ i → i ≤ pos → ∃ x, rd arr' i = some x ∧ x ≤ 3)
      ∧ (∀ i, pos < i → i ≤ 9 → ∃ x, rd arr' i = some x ∧ 3 < x)
      ∧ pos - 0 + 1
          = (((segment [3, 1, 4, 1, 5, 9, 2, 6, 5, 3] 0 9).filter
              (fun x => decide (x ≤ 3))).length : Int) :=
  partition_rank_counts [3, 1, 4, 1, 5, 9, 2, 6, 5, 3] 0 9 3 (by decide) (by decide) (by decide)
    (by decide)

/-- C16, at the failing input. On the 50 descending values of test 9 the ten
group medians are `48, 43, ..., 3` and `median_of_medians` returns 13: only
three of the ten medians are `≤ 13`. -/
theorem median_of_medians_below_half :
    (mom_step arr9 0 49).map
        (fun s => match s with
          | MomStep.call median r _ => (median, r)
          | MomStep.done _ _ => ([], 0))
      = some ([48, 43, 38, 33, 28, 23, 18, 13, 8, 3], 9)
    ∧ (median_of_medians 50 arr9 0 49).map Prod.fst = some 13
    ∧ (([48, 43, 38, 33, 28, 23, 18, 13, 8, 3] : List Int).filter
        (fun x => decide (x ≤ 13))).length = 3
    ∧ 2 * 3 < (50 + 4) / 5 := by decide!

/-- C17, as the code behaves. No element of `[1, 2, 3]` equals `5`, yet
`partition` returns index 2. -/
theorem partition_absent_pivot_returns :
    (5 : Int) ∉ segment [1, 2, 3] 0 2 ∧ partition [1, 2, 3] 0 2 5 = some (2, [1, 2, 3]) := by
  decide

/-- C17, amended. When no element of `arr[left..right]` equals `pivot`,
`partition` signals nothing: it returns an index `pos` in `[left, right]`, the
array is permuted, `arr[pos]` is the element that stood at `right`, every
element at `left..pos-1` is `≤ pivot` and every element at `pos+1..right` is
`> pivot`. -/
theorem partition_without_pivot (arr : List Int) (left right pivot : Int)
    (h0 : 0 ≤ left) (h1 : left ≤ right) (h2 : right < arr.length)
    (hp : pivot ∉ segment arr left right) :
    ∃ pos arr', partition arr left right pivot = some (pos, arr')
      ∧ left ≤ pos ∧ pos ≤ right ∧ arr'.Perm arr ∧ rd arr' pos = rd arr right
      ∧ (∀ i, left ≤ i → i < pos → ∃ x, rd arr' i = some x ∧ x ≤ pivot)
      ∧ (∀ i, pos < i → i ≤ right → ∃ x, rd arr' i = some x ∧ pivot < x) := by
  obtain ⟨pre, seg, post, harr, hl, hr, hseg, hsegment⟩ := frame_decomp arr left right h0 h1 h2
  rw [hsegment] at hp
  rcases List.eq_nil_or_concat seg with rfl | ⟨Q, last, rfl⟩
  · exact absurd rfl hseg
  rw [List.concat_eq_append] at hp harr hr
  have hpQ : pivot ∉ Q := fun h => hp (List.mem_append_left _ h)
  have hr' : right = (pre.length : Int) + Q.length := by
    rw [hr]; simp only [List.length_append, List.length_singleton]; push_cast; omega
  obtain ⟨L, R, hpart, hperm, hL, hR⟩ :=
    partition_frame_absent pre Q post pivot last hpQ left right hl hr'
  have hlen : L.length + R.length = Q.length := by
    have := hperm.length_eq
    simp at this
    omega
  refine ⟨(pre.length : Int) + L.length, pre ++ (L ++ last :: R) ++ post,
    by rw [harr]; exact hpart, by omega, by omega, ?_, ?_, ?_, ?_⟩
  · rw [harr]
    refine (List.Perm.append_left pre ?_).append_right post
    exact (@List.perm_middle _ last L R).trans
      (((hperm.cons last).trans (@List.perm_append_comm _ [last] Q)))
  · rw [rd_mid_part pre L R post last _ rfl, harr]
    have e1 : pre ++ (Q ++ [last]) ++ post = (pre ++ Q) ++ last :: post := by simp
    rw [e1, rd_mid _ _ _ _ (by simp [hr'])]
  · intro i hi1 hi2
    obtain ⟨x, hx, hxL⟩ := rd_left_part pre L R post last i (by omega) (by omega)
    exact ⟨x, hx, hL x hxL⟩
  · intro i hi1 hi2
    obtain ⟨x, hx, hxR⟩ := rd_right_part pre L R post last i hi1 (by omega)
    exact ⟨x, hx, hR x hxR⟩

/-- Witness of C17 amended: `[1, 2, 3]` around the absent value `5`. -/
theorem partition_without_pivot_witness :
    ∃ pos arr', partition [1, 2, 3] 0 2 5 = some (pos, arr')
      ∧ 0 ≤ pos ∧ pos ≤ 2 ∧ arr'.Perm [1, 2, 3] ∧ rd arr' pos = rd [1, 2, 3] 2
      ∧ (∀ i, 0 ≤ i → i < pos → ∃ x, rd arr' i = some x ∧ x ≤ 5)
      ∧ (∀ i, pos < i → i ≤ 2 → ∃ x, rd arr' i = some x ∧ 5 < x) :=
  partition_without_pivot [1, 2, 3] 0 2 5 (by decide) (by decide) (by decide) (by decide)

/-- C18. For a segment of more than five elements and `1 ≤ k ≤ right-left+1`,
the recursive call `linear_select` makes is on a non-empty sub-segment
`[l, r]` of `[left, right]` with a rank `k1` satisfying `1 ≤ k1 ≤ r-l+1`, and
the `k1`-th smallest of the sub-segment is the `k`-th smallest of the caller's
segment. -/
theorem linear_select_recursion_rank (arr : List Int) (left right k : Int)
    (h0 : 0 ≤ left) (h1 : left ≤ right) (h2 : right < arr.length)
    (h5 : 5 < right - left + 1) (hk1 : 1 ≤ k) (hk2 : k ≤ right - left + 1) :
    ∀ a l r k1, select_step arr left right k = some (SelStep.call a l r k1) →
      left ≤ l ∧ l ≤ r ∧ r ≤ right ∧ 1 ≤ k1 ∧ k1 ≤ r - l + 1
        ∧ (sorted (segment a l r))[(k1 - 1).toNat]?
            = (sorted (segment arr left right))[(k - 1).toNat]? := by
  intro a l r k1 hcall
  obtain ⟨pre, seg, post, harr, hl, hr, hseg, hsegment⟩ := frame_decomp arr left right h0 h1 h2
  rw [harr] at hcall
  rw [hsegment]
  obtain ⟨L, R, p, hperm, hL, hR, hstep⟩ :=
    select_step_large pre seg post left right k hl hr (by subst hl hr; omega)
  have hlen : L.length + 1 + R.length = seg.length := by
    have := hperm.length_eq
    simp at this
    omega
  have hsort : sorted seg = sorted L ++ p :: sorted R := by
    rw [← sorted_congr _ _ hperm]
    exact sorted_split L R p hL (fun b hb => le_of_lt (hR b hb))
  rw [hstep] at hcall
  split_ifs at hcall with hk hlt
  · simp at hcall
  · simp only [Option.some.injEq, SelStep.call.injEq] at hcall
    obtain ⟨rfl, rfl, rfl, rfl⟩ := hcall
    have e1 : pre ++ L ++ p :: R ++ post = pre ++ L ++ (p :: R ++ post) := by simp
    have hsub : segment (pre ++ L ++ p :: R ++ post) left (left + L.length - 1) = L := by
      rw [e1]
      exact segment_frame pre L _ left _ hl (by subst hl; rfl)
    refine ⟨le_refl _, by omega, by omega, hk1, by omega, ?_⟩
    rw [hsub, hsort, List.getElem?_append_left (by rw [sorted_length]; omega)]
  · simp only [Option.some.injEq, SelStep.call.injEq] at hcall
    obtain ⟨rfl, rfl, rfl, rfl⟩ := hcall
    have e1 : pre ++ L ++ p :: R ++ post = (pre ++ L ++ [p]) ++ R ++ post := by simp
    have hsub : segment (pre ++ L ++ p :: R ++ post) (left + L.length + 1) right = R := by
      rw [e1]
      exact segment_frame (pre ++ L ++ [p]) R post _ _ (by subst hl; simp; omega)
        (by subst hl hr; simp; omega)
    have hidx : (k - 1).toNat - (sorted L).length
        = (k - ((L.length : Int) + 1) - 1).toNat + 1 := by
      rw [sorted_length]; omega
    refine ⟨by omega, by omega, le_refl _, by omega, by omega, ?_⟩
    rw [hsub, hsort, List.getElem?_append_right (by rw [sorted_length]; omega), hidx,
      List.getElem?_cons_succ]

/-- Witness of C18: the array of test 3 (`10, 9, ..., 1`) with `k = 7`
recurses into `[3, 9]` with rank 4. -/
theorem linear_select_recursion_rank_witness :
    select_step [10, 9, 8, 7, 6, 5, 4, 3, 2, 1] 0 9 7
        = some (SelStep.call [1, 2, 3, 9, 10, 6, 7, 5, 4, 8] 3 9 4)
    ∧ ((0 : Int) ≤ 3 ∧ (3 : Int) ≤ 9 ∧ (9 : Int) ≤ 9 ∧ (1 : Int) ≤ 4 ∧ (4 : Int) ≤ 9 - 3 + 1
        ∧ (sorted (segment [1, 2, 3, 9, 10, 6, 7, 5, 4, 8] 3 9))[((4 : Int) - 1).toNat]?
            = (sorted (segment [10, 9, 8, 7, 6, 5, 4, 3, 2, 1] 0 9))[((7 : Int) - 1).toNat]?) :=
  ⟨by decide,
    linear_select_recursion_rank [10, 9, 8, 7, 6, 5, 4, 3, 2, 1] 0 9 7 (by decide) (by decide)
      (by decide) (by decide) (by decide) (by decide) [1, 2, 3, 9, 10, 6, 7, 5, 4, 8] 3 9 4
      (by decide)⟩

/-- C19. For `left ≤ right` and `1 ≤ k ≤ right-left+1`, after
`v = linear_select(arr, left, right, k)` the array has `arr[left+k-1] == v`,
every element at `left..left+k-2` is `≤ v` and every element at
`left+k..right` is `≥ v`. -/
theorem linear_select_nth_element (arr : List Int) (left right k : Int) (fuel : Nat)
    (h0 : 0 ≤ left) (h1 : left ≤ right) (h2 : right < arr.length)
    (hk1 : 1 ≤ k) (hk2 : k ≤ right - left + 1) (hf : (right - left + 1).toNat ≤ fuel) :
    ∃ v arr', linear_select fuel arr left right k = some (v, arr')
      ∧ rd arr' (left + k - 1) = some v
      ∧ (∀ i, left ≤ i → i < left + k - 1 → ∃ x, rd arr' i = some x ∧ x ≤ v)
      ∧ (∀ i, left + k - 1 < i → i ≤ right → ∃ x, rd arr' i = some x ∧ v ≤ x) := by
  obtain ⟨pre, seg, post, harr, hl, hr, hseg, _⟩ := frame_decomp arr left right h0 h1 h2
  obtain ⟨v, seg', hrun, hperm, A, B, hAB, hlen, hA, hB⟩ :=
    linear_select_spec fuel pre seg post left right k hseg (by omega) hl hr hk1 (by omega)
  have hlen2 : A.length + 1 + B.length = seg.length := by
    have := hperm.length_eq
    rw [hAB] at this
    simp at this
    omega
  subst hAB
  refine ⟨v, pre ++ (A ++ v :: B) ++ post, by rw [harr]; exact hrun, ?_, ?_, ?_⟩
  · exact rd_mid_part pre A B post v _ (by omega)
  · intro i hi1 hi2
    obtain ⟨x, hx, hxA⟩ := rd_left_part pre A B post v i (by omega) (by omega)
    exact ⟨x, hx, hA x hxA⟩
  · intro i hi1 hi2
    obtain ⟨x, hx, hxB⟩ := rd_right_part pre A B post v i (by omega) (by omega)
    exact ⟨x, hx, hB x hxB⟩

/-- Witness of C19: the 3rd smallest of `arr[2..8]` of the array of the first test. -/
theorem linear_select_nth_element_witness :
    ∃ v arr', linear_select 7 [3, 1, 4, 1, 5, 9, 2, 6, 5, 3] 2 8 3 = some (v, arr')
      ∧ rd arr' (2 + 3 - 1) = some v
      ∧ (∀ i, 2 ≤ i → i < 2 + 3 - 1 → ∃ x, rd arr' i = some x ∧ x ≤ v)
      ∧ (∀ i, 2 + 3 - 1 < i → i ≤ 8 → ∃ x, rd arr' i = some x ∧ v ≤ x) :=
  linear_select_nth_element [3, 1, 4, 1, 5, 9, 2, 6, 5, 3] 2 8 3 7 (by decide) (by decide)
    (by decide) (by decide) (by decide) (by decide)

/-- C20. For `left ≤ right` within bounds and `1 ≤ k ≤ right-left+1`,
`linear_select`, `median_of_medians`, `partition` (around any value) and
`insertion_sort` on `[left, right]` leave every array element at an index
outside `[left, right]` as it was. -/
theorem selection_frame (arr : List Int) (left right k pivot : Int) (fuel : Nat)
    (h0 : 0 ≤ left) (h1 : left ≤ right) (h2 : right < arr.length)
    (hk1 : 1 ≤ k) (hk2 : k ≤ right - left + 1) (hf : (right - left + 1).toNat ≤ fuel) :
    (∃ v arr', linear_select fuel arr left right k = some (v, arr')
        ∧ ∀ i, i < left ∨ right < i → rd arr' i = rd arr i)
    ∧ (∃ v arr', median_of_medians fuel arr left right = some (v, arr')
        ∧ ∀ i, i < left ∨ right < i → rd arr' i = rd arr i)
    ∧ (∃ pos arr', partition arr left right pivot = some (pos, arr')
        ∧ ∀ i, i < left ∨ right < i → rd arr' i = rd arr i)
    ∧ (∃ arr', insertion_sort arr left right = some arr'
        ∧ ∀ i, i < left ∨ right < i → rd arr' i = rd arr i) := by
  obtain ⟨pre, seg, post, harr, hl, hr, hseg, _⟩ := frame_decomp arr left right h0 h1 h2
  have hout : ∀ seg' : List Int, seg'.length = seg.length →
      ∀ i, i < left ∨ right < i → rd (pre ++ seg' ++ post) i = rd arr i := by
    intro seg' hlen i hi
    rw [harr]
    exact rd_outside pre seg seg' post hlen i (by subst hl hr; omega)
  refine ⟨?_, ?_, ?_, ?_⟩
  · obtain ⟨v, seg', hrun, hperm, _⟩ :=
      linear_select_spec fuel pre seg post left right k hseg (by omega) hl hr hk1 (by omega)
    exact ⟨v, pre ++ seg' ++ post, by rw [harr]; exact hrun, hout seg' hperm.length_eq⟩
  · obtain ⟨v, seg', hrun, hperm, _⟩ :=
      median_of_medians_spec fuel pre seg post left right hseg (by omega) hl hr
    exact ⟨v, pre ++ seg' ++ post, by rw [harr]; exact hrun, hout seg' hperm.length_eq⟩
  · by_cases hp : pivot ∈ seg
    · obtain ⟨L, R, hpart, hperm, _, _⟩ := partition_frame pre seg post pivot hp left right hl hr
      have e0 : pre ++ L ++ pivot :: R ++ post = pre ++ (L ++ pivot :: R) ++ post := by simp
      rw [e0] at hpart
      exact ⟨_, _, by rw [harr]; exact hpart, hout _ hperm.length_eq⟩
    · rcases List.eq_nil_or_concat seg with rfl | ⟨Q, last, rfl⟩
      · exact absurd rfl hseg
      rw [List.concat_eq_append] at hp harr hr hout
      have hpQ : pivot ∉ Q := fun h => hp (List.mem_append_left _ h)
      obtain ⟨L, R, hpart, hperm, _, _⟩ :=
        partition_frame_absent pre Q post pivot last hpQ left right hl
          (by rw [hr]; simp only [List.length_append, List.length_singleton]; push_cast; omega)
      refine ⟨_, _, by rw [harr]; exact hpart, hout _ ?_⟩
      have := hperm.length_eq
      simp at this ⊢
      omega
  · exact ⟨pre ++ sorted seg ++ post,
      by rw [harr]; exact insertion_sort_frame pre seg post hseg left right hl hr,
      hout _ (sorted_length seg)⟩

/-- Witness of C20 on `arr[2..8]` of the array of the first test. -/
theorem selection_frame_witness :
    (∃ v arr', linear_select 7 [3, 1, 4, 1, 5, 9, 2, 6, 5, 3] 2 8 3 = some (v, arr')
        ∧ ∀ i, i < 2 ∨ 8 < i → rd arr' i = rd [3, 1, 4, 1, 5, 9, 2, 6, 5, 3] i)
    ∧ (∃ v arr', median_of_medians 7 [3, 1, 4, 1, 5, 9, 2, 6, 5, 3] 2 8 = some (v, arr')
        ∧ ∀ i, i < 2 ∨ 8 < i → rd arr' i = rd [3, 1, 4, 1, 5, 9, 2, 6, 5, 3] i)
    ∧ (∃ pos arr', partition [3, 1, 4, 1, 5, 9, 2, 6, 5, 3] 2 8 5 = some (pos, arr')
        ∧ ∀ i, i < 2 ∨ 8 < i → rd arr' i = rd [3, 1, 4, 1, 5, 9, 2, 6, 5, 3] i)
    ∧ (∃ arr', insertion_sort [3, 1, 4, 1, 5, 9, 2, 6, 5, 3] 2 8 = some arr'
        ∧ ∀ i, i < 2 ∨ 8 < i → rd arr' i = rd [3, 1, 4, 1, 5, 9, 2, 6, 5, 3] i) :=
  selection_frame [3, 1, 4, 1, 5, 9, 2, 6, 5, 3] 2 8 3 5 7 (by decide) (by decide) (by decide)
    (by decide) (by decide) (by decide)

/-! ## Ranks and ranges outside the contract -/

theorem linear_select_short_spec (pre seg post : List Int) (left right k : Int) (fuel : Nat)
    (hl : left = (pre.length : Int)) (hr : right = (pre.length : Int) + seg.length - 1)
    (h2 : 2 ≤ seg.length) (h5 : seg.length ≤ 5) :
    linear_select (fuel + 1) (pre ++ seg ++ post) left right k
      = (rd (pre ++ sorted seg ++ post) (left + k - 1)).map
          (fun v => (v, pre ++ sorted seg ++ post)) := by
  have hseg : seg ≠ [] := by intro h; rw [h] at h2; simp at h2
  unfold linear_select select_step
  rw [if_neg (by subst hl hr; omega), if_pos (by subst hl hr; omega),
    insertion_sort_frame pre seg post hseg left right hl hr]
  simp only []
  cases rd (pre ++ sorted seg ++ post) (left + k - 1) with
  | none => rfl
  | some v => rfl

theorem linear_select_out_of_range_spec (fuel : Nat) :
    ∀ (pre seg post : List Int) (left right k : Int), seg ≠ [] → seg.length ≤ fuel →
      left = (pre.length : Int) → right = (pre.length : Int) + seg.length - 1 →
      (k < 1 ∨ (seg.length : Int) < k) →
      ∃ seg', seg'.Perm seg ∧
        ((∃ v, linear_select fuel (pre ++ seg ++ post) left right k
              = some (v, pre ++ seg' ++ post)
            ∧ v ∈ seg ∧ (k < 1 → ∀ x ∈ seg, v ≤ x)
            ∧ ((seg.length : Int) < k → ∀ x ∈ seg, x ≤ v))
         ∨ linear_select fuel (pre ++ seg ++ post) left right k
            = (rd (pre ++ seg' ++ post) (left + k - 1)).map
                (fun v => (v, pre ++ seg' ++ post))) := by
  induction fuel with
  | zero =>
    intro pre seg post left right k hseg hf
    have := List.length_pos.mpr hseg
    omega
  | succ fuel ih =>
    intro pre seg post left right k hseg hf hl hr hk
    have hpos : 0 < seg.length := List.length_pos.mpr hseg
    by_cases h1 : seg.length = 1
    · -- one element: returned whatever `k` is
      obtain ⟨x, rfl⟩ := List.length_eq_one.mp h1
      refine ⟨[x], List.Perm.refl _, Or.inl ⟨x, ?_, by simp, by simp, by simp⟩⟩
      have e1 : pre ++ [x] ++ post = pre ++ x :: post := by simp
      unfold linear_select select_step
      rw [if_pos (by subst hl hr; simp), e1, rd_mid _ _ _ _ hl]
    by_cases h5 : seg.length ≤ 5
    · -- two to five elements: sorted, then `arr[left + k - 1]` is read
      exact ⟨sorted seg, sorted_perm seg,
        Or.inr (linear_select_short_spec pre seg post left right k fuel hl hr (by omega) h5)⟩
    -- more than five elements
    obtain ⟨L, R, p, hperm, hL, hR, hstep⟩ :=
      select_step_large pre seg post left right k hl hr (by omega)
    have hlenLR : L.length + 1 + R.length = seg.length := by
      have := hperm.length_eq
      simp at this
      omega
    have hcase : ∀ x ∈ seg, x ∈ L ∨ x = p ∨ x ∈ R := by
      intro x hx
      have hx' := hperm.symm.subset hx
      rcases List.mem_append.mp hx' with h | h
      · exact Or.inl h
      · rcases List.mem_cons.mp h with h | h
        · exact Or.inr (Or.inl h)
        · exact Or.inr (Or.inr h)
    obtain ⟨f, rfl⟩ : ∃ f, fuel = f + 1 := ⟨fuel - 1, by omega⟩
    unfold linear_select
    rw [hstep, if_neg (by omega)]
    rcases hk with hk | hk
    · -- `k < 1`: the left side is searched
      rw [if_pos (by omega)]
      simp only []
      by_cases hLe : L = []
      · subst hLe
        refine ⟨[] ++ p :: R, by simpa using hperm, Or.inr ?_⟩
        have e1 : pre ++ [] ++ p :: R ++ post = pre ++ ([] ++ p :: R) ++ post := by simp
        rw [e1]
        exact linear_select_inverted_spec _ left _ k f (by simp)
      · have e1 : pre ++ L ++ p :: R ++ post = pre ++ L ++ (p :: R ++ post) := by simp
        obtain ⟨L', hpermL, hres⟩ :=
          ih pre L (p :: R ++ post) left (left + L.length - 1) k hLe (by omega) hl
            (by subst hl; rfl) (Or.inl hk)
        have e2 : pre ++ L' ++ (p :: R ++ post) = pre ++ (L' ++ p :: R) ++ post := by simp
        refine ⟨L' ++ p :: R, (hpermL.append_right (p :: R)).trans hperm, ?_⟩
        rw [e1]
        rcases hres with ⟨v, hrun, hvL, hmin, _⟩ | hrun
        · left
          refine ⟨v, by rw [hrun, e2], hperm.subset (List.mem_append_left _ hvL), ?_,
            fun h => by omega⟩
          intro _ x hx
          rcases hcase x hx with h | h | h
          · exact hmin hk x h
          · rw [h]; exact hL v hvL
          · exact le_trans (hL v hvL) (le_of_lt (hR x h))
        · right
          rw [hrun, e2]
    · -- `k > n`: the right side is searched
      rw [if_neg (by omega)]
      simp only []
      have hidx : left + L.length + 1 + (k - ((L.length : Int) + 1)) - 1 = left + k - 1 := by
        omega
      by_cases hRe : R = []
      · subst hRe
        refine ⟨L ++ [p], by simpa using hperm, Or.inr ?_⟩
        have e1 : pre ++ L ++ [p] ++ post = pre ++ (L ++ [p]) ++ post := by simp
        rw [← hidx, e1]
        exact linear_select_inverted_spec _ _ right _ f (by
          simp at hlenLR; subst hl hr; omega)
      · have e1 : pre ++ L ++ p :: R ++ post = (pre ++ L ++ [p]) ++ R ++ post := by simp
        obtain ⟨R', hpermR, hres⟩ :=
          ih (pre ++ L ++ [p]) R post (left + L.length + 1) right (k - ((L.length : Int) + 1))
            hRe (by omega) (by subst hl; simp; omega) (by subst hl hr; simp; omega)
            (Or.inr (by omega))
        have e2 : pre ++ L ++ [p] ++ R' ++ post = pre ++ (L ++ p :: R') ++ post := by simp
        refine ⟨L ++ p :: R', ((hpermR.cons p).append_left L).trans hperm, ?_⟩
        rw [e1]
        rcases hres with ⟨v, hrun, hvR, _, hmax⟩ | hrun
        · left
          refine ⟨v, by rw [hrun, e2],
            hperm.subset (List.mem_append_right _ (List.mem_cons_of_mem _ hvR)),
            fun h => by omega, ?_⟩
          intro _ x hx
          rcases hcase x hx with h | h | h
          · exact le_trans (hL x h) (le_of_lt (hR v hvR))
          · rw [h]; exact le_of_lt (hR v hvR)
          · exact hmax (by omega) x h
        · right
          rw [hrun, e2, hidx]

theorem rd_out_of_bounds (arr : List Int) (i : Int) (h : i < 0 ∨ (arr.length : Int) ≤ i) :
    rd arr i = none := by
  unfold rd
  by_cases h0 : 0 ≤ i
  · rw [if_pos h0]
    exact List.getElem?_eq_none (by omega)
  · rw [if_neg h0]

/-- C3, amended. `linear_select` has no check of `k` and no way to signal a
failure. For an in-bounds segment `[left, right]` of `n` elements (the whole
sequence is `left = 0`, `right = n-1`) and an `int` `k` with `k < 1` or `k > n`,
the index computations staying in `int` range, the call permutes the segment,
leaves the rest of the array alone, and either returns the minimum of the
segment (`k < 1`) or its maximum (`k > n`), or returns what the read of
`arr[left + k - 1]` yields, an index outside the segment: the element there,
or nothing defined when the index is outside the array, as it always is for
the whole sequence. A one-element segment returns its element and the array is
as it was; a segment of two to five elements is sorted and that read follows. -/
theorem linear_select_rank_out_of_range (arr : List Int) (left right k : Int) (fuel : Nat)
    (h0 : 0 ≤ left) (h1 : left ≤ right) (h2 : right < arr.length)
    (_hn : (arr.length : Int) < 2147483644) (hk : InInt k) (hi : InInt (left + k))
    (hi1 : InInt (left + k - 1)) (hout : k < 1 ∨ right - left + 1 < k)
    (hf : (right - left + 1).toNat ≤ fuel) :
    (∃ arr', arr'.Perm arr ∧ (∀ i, i < left ∨ right < i → rd arr' i = rd arr i) ∧
      ((∃ v, linear_select fuel arr left right k = some (v, arr')
          ∧ v ∈ segment arr left right
          ∧ (k < 1 → ∀ x ∈ segment arr left right, v ≤ x)
          ∧ (right - left + 1 < k → ∀ x ∈ segment arr left right, x ≤ v))
       ∨ linear_select fuel arr left right k
          = (rd arr (left + k - 1)).map (fun v => (v, arr'))))
    ∧ (left = right →
        ∃ x, rd arr left = some x ∧ linear_select fuel arr left right k = some (x, arr))
    ∧ (2 ≤ right - left + 1 → right - left + 1 ≤ 5 →
        ∃ arr', insertion_sort arr left right = some arr'
          ∧ linear_select fuel arr left right k
              = (rd arr (left + k - 1)).map (fun v => (v, arr')))
    ∧ (left = 0 → right = (arr.length : Int) - 1 → rd arr (left + k - 1) = none) := by
  obtain ⟨pre, seg, post, harr, hl, hr, hseg, hsegment⟩ := frame_decomp arr left right h0 h1 h2
  have hpos : 0 < seg.length := List.length_pos.mpr hseg
  have hidx : left + k - 1 < (pre.length : Int)
      ∨ (pre.length : Int) + seg.length - 1 < left + k - 1 := by
    subst hl hr; omega
  have hrd : ∀ seg' : List Int, seg'.length = seg.length →
      rd (pre ++ seg' ++ post) (left + k - 1) = rd arr (left + k - 1) := by
    intro seg' hlen
    rw [harr]
    exact rd_outside pre seg seg' post hlen _ hidx
  refine ⟨?_, ?_, ?_, ?_⟩
  · obtain ⟨seg', hperm, hres⟩ :=
      linear_select_out_of_range_spec fuel pre seg post left right k hseg (by omega) hl hr
        (by subst hl hr; omega)
    refine ⟨pre ++ seg' ++ post, ?_, ?_, ?_⟩
    · rw [harr]
      exact (hperm.append_left pre).append_right post
    · intro i hi
      rw [harr]
      exact rd_outside pre seg seg' post hperm.length_eq i (by subst hl hr; omega)
    · rw [hsegment]
      rcases hres with ⟨v, hrun, hv, hmin, hmax⟩ | hrun
      · exact Or.inl ⟨v, by rw [harr]; exact hrun, hv, hmin,
          fun h => hmax (by subst hl hr; omega)⟩
      · right
        rw [← hrd seg' hperm.length_eq, harr]
        exact hrun
  · intro hlr
    obtain ⟨f, rfl⟩ : ∃ f, fuel = f + 1 := ⟨fuel - 1, by omega⟩
    have hlt : left.toNat < arr.length := by omega
    refine ⟨arr[left.toNat], ?_, ?_⟩
    · unfold rd
      rw [if_pos h0, List.getElem?_eq_getElem hlt]
    · unfold linear_select select_step
      rw [if_pos hlr]
      unfold rd
      rw [if_pos h0, List.getElem?_eq_getElem hlt]
  · intro hn2 hn5
    obtain ⟨f, rfl⟩ : ∃ f, fuel = f + 1 := ⟨fuel - 1, by omega⟩
    refine ⟨pre ++ sorted seg ++ post,
      by rw [harr]; exact insertion_sort_frame pre seg post hseg left right hl hr, ?_⟩
    rw [← hrd (sorted seg) (sorted_length seg), harr]
    exact linear_select_short_spec pre seg post left right k f hl hr
      (by subst hl hr; omega) (by subst hl hr; omega)
  · intro hl0 hrn
    exact rd_out_of_bounds arr _ (by omega)

/-- Witness of C3 amended: on the segment `[1, 2]` of `[9, 2, 1, 8]` with
`k = 3` the call sorts the segment and returns `arr[3] = 8`, which is not in
the segment; on the six elements `1, 3, 4, 5, 6, 2` with `k = 0` it returns
the minimum `1` and leaves the sequence reordered. -/
theorem linear_select_rank_out_of_range_witness :
    (linear_select 2 [9, 2, 1, 8] 1 2 3 = some (8, [9, 1, 2, 8])
      ∧ ∃ arr', insertion_sort [9, 2, 1, 8] 1 2 = some arr'
          ∧ linear_select 2 [9, 2, 1, 8] 1 2 3
              = (rd [9, 2, 1, 8] (1 + 3 - 1)).map (fun v => (v, arr')))
    ∧ (linear_select 6 [1, 3, 4, 5, 6, 2] 0 5 0 = some (1, [1, 2, 4, 5, 6, 3])
      ∧ rd [1, 3, 4, 5, 6, 2] (0 + 0 - 1) = none) :=
  ⟨⟨by decide,
      (linear_select_rank_out_of_range [9, 2, 1, 8] 1 2 3 2 (by decide) (by decide) (by decide)
        (by decide) (by decide) (by decide) (by decide) (by decide) (by decide)).2.2.1
        (by decide) (by decide)⟩,
    ⟨by decide,
      (linear_select_rank_out_of_range [1, 3, 4, 5, 6, 2] 0 5 0 6 (by decide) (by decide)
        (by decide) (by decide) (by decide) (by decide) (by decide) (by decide) (by decide)).2.2.2
        (by decide) (by decide)⟩⟩

end Select
